import Mathlib

/-
  Verification development for the tree-sitter-gobra repository.

  The repository's visible source is the C binding header
  `src/bindings/c/tree-sitter-gobra.h`, which declares the single entry
  point `tree_sitter_gobra` returning a `const TSLanguage *` for an
  opaque, forward-declared `TSLanguage`.  The parsing core itself
  (token classifier, parse automaton, tree builder, incremental
  re-parser, error recovery unit) is not part of the visible source;
  following the specification, those components are modelled here
  directly from the spec's component contracts, and the properties of
  the spec are proved against that model.  The header's interface is
  embedded as data and as a small operational model of what a caller
  can express against it.
-/

namespace Gobra

/-! ## Bytes and lexical classes (Token Classifier, modelled from the spec) -/

/-- Modelled from the spec: source text is a finite byte sequence. -/
abbrev Byte := Nat

/-- Modelled from the spec: letter bytes (ASCII), the alphabet of identifiers
and keywords. -/
def isLetter (b : Byte) : Bool :=
  decide ((65 ≤ b ∧ b ≤ 90) ∨ (97 ≤ b ∧ b ≤ 122))

/-- Modelled from the spec: digit bytes. -/
def isDigit (b : Byte) : Bool :=
  decide (48 ≤ b ∧ b ≤ 57)

/-- Modelled from the spec: whitespace bytes (space, newline, tab). -/
def isWS (b : Byte) : Bool :=
  decide (b = 32 ∨ b = 10 ∨ b = 9)

/-- Modelled from the spec: single-byte punctuation terminals of the grammar
(braces, parentheses, the comparison operator, the annotation marker). -/
def isPunct (b : Byte) : Bool :=
  decide (b = 123 ∨ b = 125 ∨ b = 40 ∨ b = 41 ∨ b = 62 ∨ b = 64)

/-- Modelled from the spec: a byte is recognized when some lexical rule can
start with it; all other bytes form error tokens. -/
def isRecognized (b : Byte) : Bool :=
  isLetter b || isDigit b || isWS b || isPunct b

/-- Modelled from the spec: the enumerated terminal symbols (token kinds) of
the grammar, including the host-language keyword, the annotation keywords of
the verification sublanguage, and the synthetic error token. -/
inductive TokKind where
  | kwFunc
  | kwRequires
  | kwEnsures
  | kwInvariant
  | ident
  | number
  | space
  | lbrace
  | rbrace
  | lparen
  | rparen
  | gtOp
  | atMark
  | errorTok
  deriving DecidableEq, Repr

/-- Modelled from the spec: the explicit lexical mode threaded through the
re-entrant Token Classifier (normal host-language mode versus annotation
mode, in which the verification keywords are keywords). -/
inductive LexMode where
  | normal
  | annot
  deriving DecidableEq, Repr

/-- Modelled from the spec: the annotation marker toggles the lexical mode. -/
def toggle : LexMode → LexMode
  | .normal => .annot
  | .annot => .normal

/-- The byte spelling of the host-language keyword. -/
def kwFuncB : List Byte := [102, 117, 110, 99]

/-- The byte spelling of the precondition annotation keyword. -/
def kwRequiresB : List Byte := [114, 101, 113, 117, 105, 114, 101, 115]

/-- The byte spelling of the postcondition annotation keyword. -/
def kwEnsuresB : List Byte := [101, 110, 115, 117, 114, 101, 115]

/-- The byte spelling of the invariant annotation keyword. -/
def kwInvariantB : List Byte := [105, 110, 118, 97, 114, 105, 97, 110, 116]

/-- Modelled from the spec: classify a maximal letter run, breaking the
equal-length tie between keyword and identifier by the per-rule priority:
the host keyword always wins, annotation keywords win only in annotation
lexical mode. -/
def classifyWord (m : LexMode) (w : List Byte) : TokKind :=
  if w = kwFuncB then .kwFunc
  else if m = .annot ∧ w = kwRequiresB then .kwRequires
  else if m = .annot ∧ w = kwEnsuresB then .kwEnsures
  else if m = .annot ∧ w = kwInvariantB then .kwInvariant
  else .ident

/-- Modelled from the spec: one step of the Token Classifier.  Given the
lexical mode and the remaining bytes, produce the kind of the next token,
its byte length, and the successor mode; `none` exactly at end of input.
Longest match is realized by taking maximal runs; an unrecognized byte
sequence yields a synthetic error token spanning the offending bytes. -/
def lexStep (m : LexMode) (s : List Byte) : Option (TokKind × Nat × LexMode) :=
  match s with
  | [] => none
  | b :: _ =>
    if isLetter b then
      some (classifyWord m (s.takeWhile isLetter), (s.takeWhile isLetter).length, m)
    else if isDigit b then
      some (.number, (s.takeWhile isDigit).length, m)
    else if isWS b then
      some (.space, (s.takeWhile isWS).length, m)
    else if b = 123 then some (.lbrace, 1, m)
    else if b = 125 then some (.rbrace, 1, m)
    else if b = 40 then some (.lparen, 1, m)
    else if b = 41 then some (.rparen, 1, m)
    else if b = 62 then some (.gtOp, 1, m)
    else if b = 64 then some (.atMark, 1, toggle m)
    else
      some (.errorTok, (s.takeWhile (fun c => !isRecognized c)).length, m)

/-- The mode reached after emitting a token of the given kind: only the
annotation marker toggles the mode. -/
def modeAfterTok (m : LexMode) (k : TokKind) : LexMode :=
  if k = .atMark then toggle m else m

/-- Fuel-indexed tokenizer: repeatedly apply `lexStep`, threading the
lexical mode; the fuel dominates the length of the remaining input. -/
def tokF : Nat → LexMode → List Byte → List (TokKind × Nat)
  | 0, _, _ => []
  | fuel + 1, m, s =>
    match lexStep m s with
    | none => []
    | some (k, n, m2) => (k, n) :: tokF fuel m2 (s.drop n)

/-- Modelled from the spec: the Token Classifier run to end of input,
producing the kinds and byte lengths of all tokens in order. -/
def tokenize (m : LexMode) (s : List Byte) : List (TokKind × Nat) :=
  tokF s.length m s

/-- Modelled from the spec: a Token carries its terminal kind and its byte
range (start inclusive, stop exclusive). -/
structure Token where
  kind : TokKind
  start : Nat
  stop : Nat
  deriving DecidableEq, Repr

/-- Attach absolute byte positions, starting at `p`, to a list of token
kinds and lengths. -/
def withPos (p : Nat) : List (TokKind × Nat) → List Token
  | [] => []
  | (k, n) :: ts => ⟨k, p, p + n⟩ :: withPos (p + n) ts

/-- Tokens of a byte suffix, lexed in mode `m`, positioned from byte `p`. -/
def tokPos (m : LexMode) (p : Nat) (s : List Byte) : List Token :=
  withPos p (tokenize m s)

/-- Modelled from the spec: the full token stream of a text, starting in the
normal lexical mode at byte 0. -/
def lexTokens (s : List Byte) : List Token :=
  tokPos .normal 0 s

/-- End position of a token list that starts at byte `p`: the stop of its
last token, or `p` itself when the list is empty. -/
def endPos (p : Nat) (ts : List Token) : Nat :=
  match ts.getLast? with
  | none => p
  | some t => t.stop

/-- Mode reached after a list of already-emitted tokens. -/
def modeFold (m : LexMode) (ts : List Token) : LexMode :=
  ts.foldl (fun acc t => modeAfterTok acc t.kind) m

/-! ## Edits -/

/-- Modelled from the spec: an Edit Descriptor — byte offset, number of
bytes removed, and the inserted bytes. -/
structure Edit where
  start : Nat
  removed : Nat
  inserted : List Byte

/-- Modelled from the spec: apply an edit to a text — replace the `removed`
bytes at `start` by the inserted bytes. -/
def applyEdit (S : List Byte) (E : Edit) : List Byte :=
  S.take E.start ++ E.inserted ++ S.drop (E.start + E.removed)

/-! ## Syntax trees and the parse machine (Parse Automaton + Tree Builder,
modelled from the spec) -/

/-- Modelled from the spec: the nonterminal symbols of the tree —
the root program symbol and the brace-delimited block. -/
inductive Sym where
  | program
  | block
  deriving DecidableEq, Repr

/-- Modelled from the spec: a Syntax Tree Node — a terminal leaf carrying
its token kind, byte range and the is-error / is-missing recovery flags,
or an interior node carrying a nonterminal symbol, byte range and ordered
children. -/
inductive Tree where
  | leaf (k : TokKind) (a b : Nat) (err miss : Bool) : Tree
  | node (sym : Sym) (a b : Nat) (cs : List Tree) : Tree
  deriving Repr

/-- Start of a node's byte range. -/
def tStart : Tree → Nat
  | .leaf _ a _ _ _ => a
  | .node _ a _ _ => a

/-- Stop of a node's byte range. -/
def tStop : Tree → Nat
  | .leaf _ _ b _ _ => b
  | .node _ _ b _ => b

/-- The is-error flag of a node (interior nodes carry no flag here:
error marking happens on the recovery leaves). -/
def tErr : Tree → Bool
  | .leaf _ _ _ e _ => e
  | .node _ _ _ _ => false

/-- The is-missing flag of a node. -/
def tMiss : Tree → Bool
  | .leaf _ _ _ _ m => m
  | .node _ _ _ _ => false

/-- The leaf corresponding to a consumed source token; error tokens are
marked with the is-error flag. -/
def leafOf (t : Token) : Tree :=
  .leaf t.kind t.start t.stop (decide (t.kind = .errorTok)) false

/-- Modelled from the spec: the Parse Automaton's per-parse mutable state —
the sequence of completed sibling nodes at the current nesting level, and
the stack of still-open block frames (the opening token together with the
siblings outside it). -/
structure PSt where
  acc : List Tree
  stk : List (Token × List Tree)

/-- Modelled from the spec: one shift/reduce step of the Parse Automaton and
Tree Builder.  An opening brace shifts a frame; a closing brace reduces the
frame to a block node whose children are exactly the popped nodes in
original order, spanning first child's start to last child's end; a closing
brace with no open frame is recovered locally as an error-marked leaf
spanning exactly that token; every other token shifts as a leaf. -/
def stepP (st : PSt) (t : Token) : PSt :=
  if t.kind = .rbrace then
    match st.stk with
    | (lb, outer) :: rest =>
      ⟨outer ++ [.node .block lb.start t.stop (leafOf lb :: (st.acc ++ [leafOf t]))], rest⟩
    | [] => ⟨st.acc ++ [.leaf .rbrace t.start t.stop true false], []⟩
  else if t.kind = .lbrace then
    ⟨[], (t, st.acc) :: st.stk⟩
  else
    ⟨st.acc ++ [leafOf t], st.stk⟩

/-- Modelled from the spec: the Error Recovery Unit at end of input — every
still-open block is closed by synthesizing a zero-width missing closing
delimiter at the end position, so the tree always covers the whole input. -/
def closeAll (e : Nat) : List Tree → List (Token × List Tree) → List Tree
  | acc, [] => acc
  | acc, (lb, outer) :: rest =>
    closeAll e (outer ++ [.node .block lb.start e (leafOf lb :: (acc ++ [.leaf .rbrace e e false true]))]) rest

/-- Modelled from the spec: the Tree Builder over a whole token stream —
fold the automaton over the tokens, close unterminated blocks, and wrap the
result in the program root spanning the whole input. -/
def buildTree (toks : List Token) (len : Nat) : Tree :=
  let st := toks.foldl stepP ⟨[], []⟩
  .node .program 0 len (closeAll len st.acc st.stk)

/-- Modelled from the spec: a from-scratch full parse of a byte sequence. -/
def fullParse (S : List Byte) : Tree :=
  buildTree (lexTokens S) S.length

/-! ## Tree observations -/

mutual

/-- The source tokens of a tree: its non-missing leaves, in order, projected
to kind and byte range. -/
def treeToks : Tree → List Token
  | .leaf k a b _ miss => if miss then [] else [⟨k, a, b⟩]
  | .node _ _ _ cs => listToks cs

/-- The source tokens of a list of sibling trees, in order. -/
def listToks : List Tree → List Token
  | [] => []
  | t :: ts => treeToks t ++ listToks ts

end

mutual

/-- All leaves of a tree, in order, as leaf subtrees. -/
def leavesT : Tree → List Tree
  | .leaf k a b e miss => [.leaf k a b e miss]
  | .node _ _ _ cs => leavesL cs

/-- All leaves of a list of sibling trees, in order. -/
def leavesL : List Tree → List Tree
  | [] => []
  | t :: ts => leavesT t ++ leavesL ts

end

/-- Sibling byte-range contiguity: the children tile exactly the range from
`a` to `b`, each child starting where the previous one stopped. -/
def chainB : Nat → Nat → List Tree → Bool
  | a, b, [] => decide (a = b)
  | a, b, t :: ts => decide (tStart t = a) && chainB (tStop t) b ts

mutual

/-- Modelled from the spec: the Syntax Tree Node range invariant — every
node's byte range equals the union of its children's ranges (empty range
for childless interior nodes, the token's own range for terminals), and
sibling ranges are contiguous and non-overlapping. -/
def wfT : Tree → Bool
  | .leaf _ a b _ _ => decide (a ≤ b)
  | .node _ a b cs => chainB a b cs && wfL cs

/-- The range invariant on every tree of a list. -/
def wfL : List Tree → Bool
  | [] => true
  | t :: ts => wfT t && wfL ts

end

mutual

/-- Number of nodes of a tree. -/
def sizeT : Tree → Nat
  | .leaf _ _ _ _ _ => 1
  | .node _ _ _ cs => 1 + sizeL cs

/-- Total number of nodes of a list of trees. -/
def sizeL : List Tree → Nat
  | [] => 0
  | t :: ts => sizeT t + sizeL ts

end

mutual

/-- Structural equality of trees: same kind, same byte range, same flags,
and structurally equal children — the equality that ignores internal
sharing. -/
def teq : Tree → Tree → Bool
  | .leaf k a b e m, .leaf k2 a2 b2 e2 m2 =>
    decide (k = k2) && decide (a = a2) && decide (b = b2) && decide (e = e2) && decide (m = m2)
  | .node sy a b cs, .node sy2 a2 b2 cs2 =>
    decide (sy = sy2) && decide (a = a2) && decide (b = b2) && teqL cs cs2
  | _, _ => false

/-- Structural equality of lists of trees. -/
def teqL : List Tree → List Tree → Bool
  | [], [] => true
  | t :: ts, t2 :: ts2 => teq t t2 && teqL ts ts2
  | _, _ => false

end

/-- The bytes of `S` between positions `a` (inclusive) and `b` (exclusive). -/
def sliceB (S : List Byte) (a b : Nat) : List Byte :=
  (S.drop a).take (b - a)

mutual

/-- The source text spanned by the leaves of a tree, concatenated in
order. -/
def spanT (S : List Byte) : Tree → List Byte
  | .leaf _ a b _ _ => sliceB S a b
  | .node _ _ _ cs => spanL S cs

/-- The source text spanned by a list of sibling trees, in order. -/
def spanL (S : List Byte) : List Tree → List Byte
  | [] => []
  | t :: ts => spanT S t ++ spanL S ts

end

/-! ## Incremental re-parsing (Incremental Re-parser, modelled from the
spec) -/

/-- Modelled from the spec: the Incremental Re-parser.  Given the previous
tree, the edit descriptor and the post-edit text, it reuses the previous
tree's tokens that lie entirely before the edited region (their bytes and
one byte of lookahead are untouched by the edit), restores the lexical mode
reached after them, re-runs the Token Classifier only from that point of
the new text, and rebuilds the tree from the combined token stream. -/
def incrementalParse (T : Tree) (E : Edit) (S2 : List Byte) : Tree :=
  let n := min E.start (tStop T)
  let pre := (treeToks T).takeWhile (fun t => decide (t.stop < n))
  let q := endPos 0 pre
  let m := modeFold .normal pre
  buildTree (pre ++ tokPos m q (S2.drop q)) S2.length

/-- Modelled from the spec: the parse relation between a text and a tree —
the graph of the deterministic full parse. -/
def Parses (S : List Byte) (T : Tree) : Prop :=
  fullParse S = T

/-! ## Basic lexer lemmas -/

theorem length_takeWhile_pos {p : Byte → Bool} {b : Byte} (t : List Byte)
    (h : p b = true) : 1 ≤ ((b :: t).takeWhile p).length := by
  rw [List.takeWhile_cons, if_pos h]
  simp

theorem unrecognized_of_guards {b : Byte}
    (hl : isLetter b = false) (hd : isDigit b = false) (hw : isWS b = false)
    (h1 : ¬b = 123) (h2 : ¬b = 125) (h3 : ¬b = 40) (h4 : ¬b = 41)
    (h5 : ¬b = 62) (h6 : ¬b = 64) : isRecognized b = false := by
  simp [isRecognized, isPunct, hl, hd, hw, h1, h2, h3, h4, h5, h6]

theorem lexStep_isSome (m : LexMode) (b : Byte) (t : List Byte) :
    (lexStep m (b :: t)).isSome = true := by
  simp only [lexStep]
  repeat' split
  all_goals simp

theorem lexStep_none_iff (m : LexMode) (s : List Byte) :
    lexStep m s = none ↔ s = [] := by
  cases s with
  | nil => simp [lexStep]
  | cons b t =>
    constructor
    · intro h
      have hs := lexStep_isSome m b t
      rw [h] at hs
      simp at hs
    · intro h
      exact (List.cons_ne_nil b t h).elim

theorem lexStep_bounds {m : LexMode} {s : List Byte} {k : TokKind} {n : Nat}
    {m2 : LexMode} (h : lexStep m s = some (k, n, m2)) :
    1 ≤ n ∧ n ≤ s.length := by
  cases s with
  | nil => simp [lexStep] at h
  | cons b t =>
    simp only [lexStep] at h
    repeat' split at h
    all_goals
      simp only [Option.some.injEq, Prod.mk.injEq] at h
      obtain ⟨hk, hn, hm2⟩ := h
      subst hn
    all_goals try (exact ⟨le_refl 1, by simp⟩)
    all_goals refine ⟨length_takeWhile_pos t ?_, (List.takeWhile_sublist _).length_le⟩
    all_goals try assumption
    rename_i hl hd hw h1 h2 h3 h4 h5 h6
    simp only [Bool.not_eq_true] at hl hd hw
    simp [unrecognized_of_guards hl hd hw h1 h2 h3 h4 h5 h6]

theorem classifyWord_ne_atMark (m : LexMode) (w : List Byte) :
    classifyWord m w ≠ .atMark := by
  unfold classifyWord
  repeat' split
  all_goals simp

theorem lexStep_mode {m : LexMode} {s : List Byte} {k : TokKind} {n : Nat}
    {m2 : LexMode} (h : lexStep m s = some (k, n, m2)) :
    m2 = modeAfterTok m k := by
  cases s with
  | nil => simp [lexStep] at h
  | cons b t =>
    simp only [lexStep] at h
    repeat' split at h
    all_goals
      simp only [Option.some.injEq, Prod.mk.injEq] at h
      obtain ⟨hk, hn, hm2⟩ := h
      subst hm2
      subst hk
    all_goals first
      | rw [modeAfterTok, if_neg (classifyWord_ne_atMark m _)]
      | simp [modeAfterTok]

theorem tokF_congr : ∀ (f1 f2 : Nat) (m : LexMode) (s : List Byte),
    s.length ≤ f1 → s.length ≤ f2 → tokF f1 m s = tokF f2 m s := by
  intro f1
  induction f1 with
  | zero =>
    intro f2 m s h1 _
    have hs : s = [] := List.length_eq_zero.mp (Nat.le_zero.mp h1)
    subst hs
    cases f2 with
    | zero => rfl
    | succ g => simp [tokF, lexStep]
  | succ g ih =>
    intro f2 m s h1 h2
    cases hls : lexStep m s with
    | none =>
      have hs : s = [] := (lexStep_none_iff m s).mp hls
      subst hs
      cases f2 with
      | zero => rfl
      | succ g2 => simp [tokF, lexStep]
    | some r =>
      obtain ⟨k, n, m2⟩ := r
      have hb := lexStep_bounds hls
      have hsne : s ≠ [] := by
        intro hs
        subst hs
        simp [lexStep] at hls
      have hlenpos : 1 ≤ s.length := by
        cases s with
        | nil => exact (hsne rfl).elim
        | cons a u => simp
      cases f2 with
      | zero => omega
      | succ g2 =>
        simp only [tokF, hls]
        have hd : (s.drop n).length ≤ g := by
          rw [List.length_drop]
          omega
        have hd2 : (s.drop n).length ≤ g2 := by
          rw [List.length_drop]
          omega
        rw [ih g2 m2 (s.drop n) hd hd2]

theorem tokenize_eq (m : LexMode) (s : List Byte) :
    tokenize m s =
      match lexStep m s with
      | none => []
      | some (k, n, m2) => (k, n) :: tokenize m2 (s.drop n) := by
  cases hls : lexStep m s with
  | none =>
    have hs : s = [] := (lexStep_none_iff m s).mp hls
    subst hs
    rfl
  | some r =>
    obtain ⟨k, n, m2⟩ := r
    have hb := lexStep_bounds hls
    have hsne : 1 ≤ s.length := by omega
    unfold tokenize
    cases hL : s.length with
    | zero => omega
    | succ L =>
      simp only [tokF, hls]
      have : (s.drop n).length ≤ L := by
        rw [List.length_drop]
        omega
      rw [tokF_congr L (s.drop n).length m2 (s.drop n) this (le_refl _)]

/-! ## Token stream structure -/

theorem tokenize_rec (P : LexMode → List Byte → Prop)
    (h : ∀ m s, (∀ k n m2, lexStep m s = some (k, n, m2) → P m2 (s.drop n)) → P m s) :
    ∀ m s, P m s := by
  have key : ∀ N s m, s.length ≤ N → P m s := by
    intro N
    induction N with
    | zero =>
      intro s m hle
      apply h
      intro k n m2 hls
      obtain ⟨h1, h2⟩ := lexStep_bounds hls
      have : False := by omega
      exact this.elim
    | succ g ih =>
      intro s m hle
      apply h
      intro k n m2 hls
      obtain ⟨h1, h2⟩ := lexStep_bounds hls
      apply ih
      rw [List.length_drop]
      omega
  intro m s
  exact key s.length s m le_rfl

theorem tokenize_sum (m : LexMode) (s : List Byte) :
    ((tokenize m s).map Prod.snd).sum = s.length := by
  induction m, s using tokenize_rec with
  | h m s ih =>
    rw [tokenize_eq]
    cases hls : lexStep m s with
    | none =>
      have hs := (lexStep_none_iff m s).mp hls
      subst hs
      rfl
    | some r =>
      obtain ⟨k, n, m2⟩ := r
      obtain ⟨h1, h2⟩ := lexStep_bounds hls
      have := ih k n m2 hls
      simp only [List.map_cons, List.sum_cons, this, List.length_drop]
      omega

theorem tokenize_count (m : LexMode) (s : List Byte) :
    (tokenize m s).length ≤ s.length := by
  induction m, s using tokenize_rec with
  | h m s ih =>
    rw [tokenize_eq]
    cases hls : lexStep m s with
    | none => simp
    | some r =>
      obtain ⟨k, n, m2⟩ := r
      obtain ⟨h1, h2⟩ := lexStep_bounds hls
      have := ih k n m2 hls
      simp only [List.length_cons]
      rw [List.length_drop] at this
      omega

theorem tokPos_eq (m : LexMode) (p : Nat) (s : List Byte) :
    tokPos m p s =
      match lexStep m s with
      | none => []
      | some (k, n, m2) => ⟨k, p, p + n⟩ :: tokPos m2 (p + n) (s.drop n) := by
  unfold tokPos
  rw [tokenize_eq]
  cases hls : lexStep m s with
  | none => rfl
  | some r =>
    obtain ⟨k, n, m2⟩ := r
    simp [withPos]

/-- Contiguity of a token list starting at byte `p`: each token starts where
the previous one stopped and is non-empty. -/
def TokChain : Nat → List Token → Prop
  | _, [] => True
  | p, t :: ts => t.start = p ∧ p < t.stop ∧ TokChain t.stop ts

theorem tokChain_tokPos (m : LexMode) (p : Nat) (s : List Byte) :
    TokChain p (tokPos m p s) := by
  have key : ∀ m s, ∀ p : Nat, TokChain p (tokPos m p s) := by
    apply tokenize_rec (P := fun m s => ∀ p : Nat, TokChain p (tokPos m p s))
    intro m s ih p
    rw [tokPos_eq]
    cases hls : lexStep m s with
    | none => trivial
    | some r =>
      obtain ⟨k, n, m2⟩ := r
      obtain ⟨h1, h2⟩ := lexStep_bounds hls
      refine ⟨rfl, ?_, ih k n m2 hls (p + n)⟩
      show p < p + n
      omega
  exact key m s p

theorem endPos_nil (p : Nat) : endPos p [] = p := rfl

theorem endPos_cons (p : Nat) (t : Token) (ts : List Token) :
    endPos p (t :: ts) = endPos t.stop ts := by
  cases ts with
  | nil => simp [endPos]
  | cons u us =>
    unfold endPos
    rw [List.getLast?_cons_cons]
    cases h : (u :: us).getLast? with
    | none =>
      have hne : (u :: us) ≠ [] := by simp
      rw [← List.getLast?_isSome, h] at hne
      simp at hne
    | some x => rfl

theorem endPos_ge : ∀ (ts : List Token) (p : Nat), TokChain p ts → p ≤ endPos p ts := by
  intro ts
  induction ts with
  | nil => intro p _; exact le_refl p
  | cons t ts ih =>
    intro p h
    obtain ⟨h1, h2, h3⟩ := h
    rw [endPos_cons]
    have := ih t.stop h3
    omega

theorem tokChain_append : ∀ (l1 l2 : List Token) (p : Nat),
    TokChain p (l1 ++ l2) → TokChain p l1 ∧ TokChain (endPos p l1) l2 := by
  intro l1
  induction l1 with
  | nil =>
    intro l2 p h
    exact ⟨trivial, h⟩
  | cons t l1 ih =>
    intro l2 p h
    obtain ⟨h1, h2, h3⟩ := h
    obtain ⟨ha, hb⟩ := ih l2 t.stop h3
    rw [endPos_cons]
    exact ⟨⟨h1, h2, ha⟩, hb⟩

theorem modeFold_nil (m : LexMode) : modeFold m [] = m := rfl

theorem modeFold_cons (m : LexMode) (t : Token) (ts : List Token) :
    modeFold m (t :: ts) = modeFold (modeAfterTok m t.kind) ts := rfl

theorem tokPos_split : ∀ (pre post : List Token) (m : LexMode) (p : Nat) (s : List Byte),
    tokPos m p s = pre ++ post →
    post = tokPos (modeFold m pre) (endPos p pre) (s.drop (endPos p pre - p)) := by
  intro pre
  induction pre with
  | nil =>
    intro post m p s h
    simp only [List.nil_append] at h
    simp only [endPos_nil, modeFold_nil, Nat.sub_self, List.drop_zero]
    exact h.symm
  | cons t pre ih =>
    intro post m p s h
    cases hls : lexStep m s with
    | none =>
      rw [tokPos_eq, hls] at h
      simp at h
    | some r =>
      obtain ⟨k, n, m2⟩ := r
      rw [tokPos_eq, hls] at h
      injection h with ht hrest
      have hmode := lexStep_mode hls
      obtain ⟨h1, h2⟩ := lexStep_bounds hls
      have hrest2 : tokPos m2 (p + n) (s.drop n) = pre ++ post := hrest
      have hchain : TokChain (p + n) (pre ++ post) := by
        rw [← hrest2]
        exact tokChain_tokPos m2 (p + n) (s.drop n)
      have hge : p + n ≤ endPos (p + n) pre :=
        endPos_ge pre (p + n) (tokChain_append pre post (p + n) hchain).1
      have hpost := ih post m2 (p + n) (s.drop n) hrest2
      have htk : t.kind = k := by rw [← ht]
      have htstop : t.stop = p + n := by rw [← ht]
      have e1 : modeFold m (t :: pre) = modeFold m2 pre := by
        rw [modeFold_cons, htk, ← hmode]
      have e2 : endPos p (t :: pre) = endPos (p + n) pre := by
        rw [endPos_cons, htstop]
      rw [e1, e2, hpost, List.drop_drop]
      congr 2
      omega

/-! ## Locality of the Token Classifier -/

theorem takeWhile_agree : ∀ (s1 s2 : List Byte) (p : Byte → Bool) (n : Nat),
    (s1.takeWhile p).length = n → s1.take (n + 1) = s2.take (n + 1) →
    s2.takeWhile p = s1.takeWhile p := by
  intro s1
  induction s1 with
  | nil =>
    intro s2 p n hlen htake
    simp only [List.takeWhile_nil, List.length_nil] at hlen
    subst hlen
    simp only [List.take_nil] at htake
    rcases List.take_eq_nil_iff.mp htake.symm with h | h
    · simp at h
    · subst h
      simp
  | cons a t1 ih =>
    intro s2 p n hlen htake
    by_cases hpa : p a = true
    · rw [List.takeWhile_cons, if_pos hpa] at hlen ⊢
      simp only [List.length_cons] at hlen
      obtain ⟨mm, rfl⟩ : ∃ mm, n = mm + 1 := ⟨(t1.takeWhile p).length, by omega⟩
      have hmm : (t1.takeWhile p).length = mm := by omega
      cases s2 with
      | nil =>
        rw [List.take_succ_cons, List.take_nil] at htake
        simp at htake
      | cons b t2 =>
        rw [List.take_succ_cons, List.take_succ_cons] at htake
        injection htake with hab ht
        subst hab
        rw [List.takeWhile_cons, if_pos hpa]
        rw [ih t2 p mm hmm ht]
    · rw [List.takeWhile_cons, if_neg hpa] at hlen ⊢
      simp only [List.length_nil] at hlen
      subst hlen
      cases s2 with
      | nil =>
        rw [List.take_succ_cons, List.take_nil] at htake
        simp at htake
      | cons b t2 =>
        rw [List.take_succ_cons, List.take_succ_cons] at htake
        injection htake with hab ht
        subst hab
        rw [List.takeWhile_cons, if_neg hpa]

theorem lexStep_local {m : LexMode} {s1 : List Byte} {k : TokKind} {n : Nat}
    {m2 : LexMode} (h : lexStep m s1 = some (k, n, m2)) :
    ∀ s2 : List Byte, s1.take (n + 1) = s2.take (n + 1) →
    lexStep m s2 = some (k, n, m2) := by
  intro s2 htake
  obtain ⟨hb1, hb2⟩ := lexStep_bounds h
  cases s1 with
  | nil => simp [lexStep] at h
  | cons b t1 =>
    cases s2 with
    | nil =>
      rw [List.take_succ_cons, List.take_nil] at htake
      simp at htake
    | cons c t2 =>
      have htk := htake
      rw [List.take_succ_cons, List.take_succ_cons] at htk
      injection htk with hbc ht
      subst hbc
      simp only [lexStep] at h ⊢
      repeat' split at h
      all_goals
        simp only [Option.some.injEq, Prod.mk.injEq] at h
        obtain ⟨hk, hn, hm⟩ := h
        subst hk
        subst hn
        subst hm
      · rename_i hg1
        have hw := takeWhile_agree (b :: t1) (b :: t2) isLetter _ rfl htake
        rw [if_pos hg1, hw]
      · rename_i hg1 hg2
        have hw := takeWhile_agree (b :: t1) (b :: t2) isDigit _ rfl htake
        rw [if_neg hg1, if_pos hg2, hw]
      · rename_i hg1 hg2 hg3
        have hw := takeWhile_agree (b :: t1) (b :: t2) isWS _ rfl htake
        rw [if_neg hg1, if_neg hg2, if_pos hg3, hw]
      · rename_i hg1 hg2 hg3 hg4
        rw [if_neg hg1, if_neg hg2, if_neg hg3, if_pos hg4]
      · rename_i hg1 hg2 hg3 hg4 hg5
        rw [if_neg hg1, if_neg hg2, if_neg hg3, if_neg hg4, if_pos hg5]
      · rename_i hg1 hg2 hg3 hg4 hg5 hg6
        rw [if_neg hg1, if_neg hg2, if_neg hg3, if_neg hg4, if_neg hg5, if_pos hg6]
      · rename_i hg1 hg2 hg3 hg4 hg5 hg6 hg7
        rw [if_neg hg1, if_neg hg2, if_neg hg3, if_neg hg4, if_neg hg5, if_neg hg6,
          if_pos hg7]
      · rename_i hg1 hg2 hg3 hg4 hg5 hg6 hg7 hg8
        rw [if_neg hg1, if_neg hg2, if_neg hg3, if_neg hg4, if_neg hg5, if_neg hg6,
          if_neg hg7, if_pos hg8]
      · rename_i hg1 hg2 hg3 hg4 hg5 hg6 hg7 hg8 hg9
        rw [if_neg hg1, if_neg hg2, if_neg hg3, if_neg hg4, if_neg hg5, if_neg hg6,
          if_neg hg7, if_neg hg8, if_pos hg9]
      · rename_i hg1 hg2 hg3 hg4 hg5 hg6 hg7 hg8 hg9
        have hw := takeWhile_agree (b :: t1) (b :: t2) (fun c => !isRecognized c) _ rfl htake
        rw [if_neg hg1, if_neg hg2, if_neg hg3, if_neg hg4, if_neg hg5, if_neg hg6,
          if_neg hg7, if_neg hg8, if_neg hg9, hw]

theorem takeWhile_stop_of_take_nil (m : LexMode) (p nn : Nat) (s2 : List Byte)
    (h : s2.take (nn - p) = []) :
    (tokPos m p s2).takeWhile (fun t => decide (t.stop < nn)) = [] := by
  rw [tokPos_eq]
  cases hls : lexStep m s2 with
  | none => rfl
  | some r =>
    obtain ⟨k, n, m2⟩ := r
    obtain ⟨h1, h2⟩ := lexStep_bounds hls
    have hs2ne : s2 ≠ [] := by
      intro hh
      subst hh
      simp [lexStep] at hls
    have hnp : nn - p = 0 := by
      rcases List.take_eq_nil_iff.mp h with h' | h'
      · exact h'
      · exact absurd h' hs2ne
    rw [List.takeWhile_cons]
    have hfalse : decide ((⟨k, p, p + n⟩ : Token).stop < nn) = false :=
      decide_eq_false (by show ¬p + n < nn; omega)
    rw [hfalse]
    simp

theorem takeWhile_stop_agree :
    ∀ (N : Nat) (s1 s2 : List Byte) (m : LexMode) (p nn : Nat), s1.length ≤ N →
    s1.take (nn - p) = s2.take (nn - p) →
    (tokPos m p s1).takeWhile (fun t => decide (t.stop < nn)) =
    (tokPos m p s2).takeWhile (fun t => decide (t.stop < nn)) := by
  intro N
  induction N with
  | zero =>
    intro s1 s2 m p nn hle htake
    have hs1 : s1 = [] := List.length_eq_zero.mp (Nat.le_zero.mp hle)
    subst hs1
    have h2 : s2.take (nn - p) = [] := by
      rw [← htake, List.take_nil]
    rw [takeWhile_stop_of_take_nil m p nn s2 h2]
    have h1 : ([] : List Byte).take (nn - p) = [] := List.take_nil
    rw [takeWhile_stop_of_take_nil m p nn [] h1]
  | succ N ih =>
    intro s1 s2 m p nn hle htake
    cases hls1 : lexStep m s1 with
    | none =>
      have hs1 : s1 = [] := (lexStep_none_iff m s1).mp hls1
      subst hs1
      have h2 : s2.take (nn - p) = [] := by
        rw [← htake, List.take_nil]
      rw [takeWhile_stop_of_take_nil m p nn s2 h2]
      exact takeWhile_stop_of_take_nil m p nn [] List.take_nil
    | some r =>
      obtain ⟨k1, n1, m1⟩ := r
      obtain ⟨hb1, hb2⟩ := lexStep_bounds hls1
      by_cases hlt : p + n1 < nn
      · have e : s1.take (n1 + 1) = s2.take (n1 + 1) := by
          have hc := congrArg (List.take (n1 + 1)) htake
          rwa [List.take_take, List.take_take, Nat.min_eq_left (by omega)] at hc
        have hls2 := lexStep_local hls1 s2 e
        rw [tokPos_eq, hls1, tokPos_eq, hls2]
        rw [List.takeWhile_cons, List.takeWhile_cons]
        have htrue : decide ((⟨k1, p, p + n1⟩ : Token).stop < nn) = true :=
          decide_eq_true (by show p + n1 < nn; omega)
        rw [htrue]
        simp only [if_true]
        have hdroptake : (s1.drop n1).take (nn - (p + n1)) = (s2.drop n1).take (nn - (p + n1)) := by
          have hc := congrArg (List.drop n1) htake
          rw [List.drop_take, List.drop_take] at hc
          rwa [Nat.sub_sub] at hc
        have hdlen : (s1.drop n1).length ≤ N := by
          rw [List.length_drop]
          omega
        rw [ih (s1.drop n1) (s2.drop n1) m1 (p + n1) nn hdlen hdroptake]
      · have hL : (tokPos m p s1).takeWhile (fun t => decide (t.stop < nn)) = [] := by
          rw [tokPos_eq, hls1, List.takeWhile_cons]
          have hfalse : decide ((⟨k1, p, p + n1⟩ : Token).stop < nn) = false :=
            decide_eq_false (by show ¬p + n1 < nn; omega)
          rw [hfalse]
          simp
        rw [hL]
        cases hls2 : lexStep m s2 with
        | none =>
          rw [tokPos_eq, hls2]
          rfl
        | some r2 =>
          obtain ⟨k2, n2, m22⟩ := r2
          obtain ⟨hc1, hc2⟩ := lexStep_bounds hls2
          by_cases hlt2 : p + n2 < nn
          · exfalso
            have e2 : s2.take (n2 + 1) = s1.take (n2 + 1) := by
              have hc := congrArg (List.take (n2 + 1)) htake.symm
              rwa [List.take_take, List.take_take, Nat.min_eq_left (by omega)] at hc
            have := lexStep_local hls2 s1 e2
            rw [hls1] at this
            injection this with hthis
            injection hthis with hk hrest
            injection hrest with hn hm
            omega
          · rw [tokPos_eq, hls2, List.takeWhile_cons]
            have hfalse : decide ((⟨k2, p, p + n2⟩ : Token).stop < nn) = false :=
              decide_eq_false (by show ¬p + n2 < nn; omega)
            rw [hfalse]
            simp

/-! ## Tree Builder bookkeeping: the leaves of the built tree are exactly
the consumed tokens -/

/-- The source tokens captured inside the open frames of the parse state,
outermost first. -/
def frameToks : List (Token × List Tree) → List Token
  | [] => []
  | (lb, outer) :: rest => frameToks rest ++ (listToks outer ++ [lb])

/-- All source tokens held by a parse state, in source order. -/
def stToks (st : PSt) : List Token :=
  frameToks st.stk ++ listToks st.acc

theorem listToks_append : ∀ l1 l2 : List Tree,
    listToks (l1 ++ l2) = listToks l1 ++ listToks l2 := by
  intro l1
  induction l1 with
  | nil => intro l2; rfl
  | cons t ts ih =>
    intro l2
    show treeToks t ++ listToks (ts ++ l2) = treeToks t ++ listToks ts ++ listToks l2
    rw [ih, List.append_assoc]

theorem treeToks_leafOf (t : Token) : treeToks (leafOf t) = [t] := rfl

theorem stToks_step (st : PSt) (t : Token) :
    stToks (stepP st t) = stToks st ++ [t] := by
  unfold stToks stepP
  split
  · rename_i hk
    cases hstk : st.stk with
    | cons fr rest =>
      obtain ⟨lb, outer⟩ := fr
      show frameToks rest ++
          listToks (outer ++ [.node .block lb.start t.stop (leafOf lb :: (st.acc ++ [leafOf t]))]) =
          frameToks ((lb, outer) :: rest) ++ listToks st.acc ++ [t]
      rw [listToks_append]
      show frameToks rest ++ (listToks outer ++ (treeToks (leafOf lb) ++
          listToks (st.acc ++ [leafOf t]) ++ [])) = _
      rw [listToks_append, treeToks_leafOf]
      show _ = frameToks rest ++ (listToks outer ++ [lb]) ++ listToks st.acc ++ [t]
      show frameToks rest ++ (listToks outer ++ ([lb] ++ ((listToks st.acc ++
          (treeToks (leafOf t) ++ [])) ++ []))) = _
      rw [treeToks_leafOf]
      simp [List.append_assoc]
    | nil =>
      show listToks (st.acc ++ [.leaf .rbrace t.start t.stop true false]) =
          frameToks [] ++ listToks st.acc ++ [t]
      rw [listToks_append]
      have hrb : (⟨TokKind.rbrace, t.start, t.stop⟩ : Token) = t := by
        rw [← hk]
      show listToks st.acc ++ (treeToks (.leaf .rbrace t.start t.stop true false) ++ []) = _
      show listToks st.acc ++ ([⟨TokKind.rbrace, t.start, t.stop⟩] ++ []) = _
      rw [hrb]
      simp [frameToks]
  · split
    · show frameToks ((t, st.acc) :: st.stk) ++ listToks [] =
          frameToks st.stk ++ listToks st.acc ++ [t]
      show frameToks st.stk ++ (listToks st.acc ++ [t]) ++ [] = _
      simp [List.append_assoc]
    · show frameToks st.stk ++ listToks (st.acc ++ [leafOf t]) =
          frameToks st.stk ++ listToks st.acc ++ [t]
      rw [listToks_append]
      show frameToks st.stk ++ (listToks st.acc ++ (treeToks (leafOf t) ++ [])) = _
      rw [treeToks_leafOf]
      simp [List.append_assoc]

theorem stToks_fold : ∀ (toks : List Token) (st : PSt),
    stToks (toks.foldl stepP st) = stToks st ++ toks := by
  intro toks
  induction toks with
  | nil => intro st; simp
  | cons t ts ih =>
    intro st
    rw [List.foldl_cons, ih, stToks_step]
    simp [List.append_assoc]

theorem listToks_closeAll : ∀ (stk : List (Token × List Tree)) (acc : List Tree) (e : Nat),
    listToks (closeAll e acc stk) = frameToks stk ++ listToks acc := by
  intro stk
  induction stk with
  | nil => intro acc e; simp [closeAll, frameToks]
  | cons fr rest ih =>
    intro acc e
    obtain ⟨lb, outer⟩ := fr
    show listToks (closeAll e (outer ++
        [.node .block lb.start e (leafOf lb :: (acc ++ [.leaf .rbrace e e false true]))]) rest) =
        frameToks ((lb, outer) :: rest) ++ listToks acc
    rw [ih, listToks_append]
    show frameToks rest ++ (listToks outer ++ (treeToks (leafOf lb) ++
        listToks (acc ++ [.leaf .rbrace e e false true]) ++ [])) = _
    rw [listToks_append, treeToks_leafOf]
    show frameToks rest ++ (listToks outer ++ ([lb] ++ ((listToks acc ++
        (treeToks (.leaf .rbrace e e false true) ++ [])) ++ []))) = _
    show frameToks rest ++ (listToks outer ++ ([lb] ++ ((listToks acc ++ ([] ++ [])) ++ []))) = _
    show _ = frameToks rest ++ (listToks outer ++ [lb]) ++ listToks acc
    simp [List.append_assoc]

theorem treeToks_buildTree (toks : List Token) (len : Nat) :
    treeToks (buildTree toks len) = toks := by
  unfold buildTree
  show listToks (closeAll len (toks.foldl stepP ⟨[], []⟩).acc (toks.foldl stepP ⟨[], []⟩).stk) = toks
  rw [listToks_closeAll]
  have h := stToks_fold toks ⟨[], []⟩
  unfold stToks at h
  rw [h]
  rfl

theorem treeToks_fullParse (S : List Byte) :
    treeToks (fullParse S) = lexTokens S :=
  treeToks_buildTree (lexTokens S) S.length

/-! ## The range invariant holds for every built tree -/

theorem chainB_append : ∀ (l1 l2 : List Tree) (a b c : Nat),
    chainB a b l1 = true → chainB b c l2 = true → chainB a c (l1 ++ l2) = true := by
  intro l1
  induction l1 with
  | nil =>
    intro l2 a b c h1 h2
    have hab : a = b := by
      simpa [chainB] using h1
    subst hab
    simpa using h2
  | cons t ts ih =>
    intro l2 a b c h1 h2
    simp only [chainB, Bool.and_eq_true, decide_eq_true_eq] at h1
    obtain ⟨hs, hc⟩ := h1
    simp only [List.cons_append, chainB, Bool.and_eq_true, decide_eq_true_eq]
    exact ⟨hs, ih l2 (tStop t) b c hc h2⟩

theorem wfL_append : ∀ l1 l2 : List Tree,
    wfL l1 = true → wfL l2 = true → wfL (l1 ++ l2) = true := by
  intro l1
  induction l1 with
  | nil => intro l2 _ h2; simpa using h2
  | cons t ts ih =>
    intro l2 h1 h2
    simp only [wfL, Bool.and_eq_true] at h1
    obtain ⟨ht, hts⟩ := h1
    simp only [List.cons_append, wfL, Bool.and_eq_true]
    exact ⟨ht, ih l2 hts h2⟩

/-- The stack invariant of the parse machine: the open frames nest
properly, the innermost open region starting at byte `a`. -/
def stkInv : List (Token × List Tree) → Nat → Prop
  | [], a => a = 0
  | (lb, outer) :: rest, a =>
    a = lb.stop ∧ lb.start ≤ lb.stop ∧
    ∃ b, stkInv rest b ∧ chainB b lb.start outer = true ∧ wfL outer = true

/-- The machine invariant at input position `p`: the state's trees tile the
consumed input and each tree satisfies the range invariant. -/
def stInv (p : Nat) (st : PSt) : Prop :=
  ∃ a, stkInv st.stk a ∧ chainB a p st.acc = true ∧ wfL st.acc = true

theorem tStart_leafOf (t : Token) : tStart (leafOf t) = t.start := rfl

theorem tStop_leafOf (t : Token) : tStop (leafOf t) = t.stop := rfl

theorem wfT_leafOf (t : Token) (h : t.start ≤ t.stop) : wfT (leafOf t) = true := by
  show decide (t.start ≤ t.stop) = true
  exact decide_eq_true h

theorem chainB_cons (a b : Nat) (x : Tree) (xs : List Tree) :
    chainB a b (x :: xs) = (decide (tStart x = a) && chainB (tStop x) b xs) := rfl

theorem chainB_nil_iff (a b : Nat) : chainB a b [] = true ↔ a = b := by
  simp [chainB]

theorem chainB_leaf_single (a : Nat) (k : TokKind) (x y : Nat) (e m : Bool)
    (hx : x = a) : chainB a y [.leaf k x y e m] = true := by
  rw [chainB_cons]
  show (decide (x = a) && chainB y y []) = true
  simp [chainB, hx]

theorem wfL_single (x : Tree) (h : wfT x = true) : wfL [x] = true := by
  show (wfT x && wfL []) = true
  simp [wfL, h]

theorem stInv_step (st : PSt) (t : Token) (p : Nat) (h : stInv p st)
    (ht1 : t.start = p) (ht2 : t.start ≤ t.stop) :
    stInv t.stop (stepP st t) := by
  obtain ⟨a, hstk, hchain, hwf⟩ := h
  unfold stepP
  split
  · rename_i hk
    cases hstk2 : st.stk with
    | cons fr rest =>
      obtain ⟨lb, outer⟩ := fr
      rw [hstk2] at hstk
      obtain ⟨ha, hlb, b, hrest, hout, houtwf⟩ := hstk
      have hchain2 : chainB lb.start t.stop (leafOf lb :: (st.acc ++ [leafOf t])) = true := by
        rw [chainB_cons, tStart_leafOf, tStop_leafOf]
        simp only [decide_eq_true_eq, Bool.and_eq_true]
        refine ⟨trivial, ?_⟩
        apply chainB_append st.acc _ lb.stop p t.stop
        · rw [← ha]
          exact hchain
        · exact chainB_leaf_single p t.kind t.start t.stop _ _ ht1
      have hwf2 : wfL (leafOf lb :: (st.acc ++ [leafOf t])) = true := by
        show (wfT (leafOf lb) && wfL (st.acc ++ [leafOf t])) = true
        rw [wfT_leafOf lb hlb]
        rw [wfL_append st.acc _ hwf (wfL_single _ (wfT_leafOf t ht2))]
        rfl
      have hblock : wfT (.node .block lb.start t.stop
          (leafOf lb :: (st.acc ++ [leafOf t]))) = true := by
        show (chainB lb.start t.stop _ && wfL _) = true
        rw [hchain2, hwf2]
        rfl
      refine ⟨b, hrest, ?_, ?_⟩
      · apply chainB_append outer _ b lb.start t.stop hout
        rw [chainB_cons]
        show (decide (lb.start = lb.start) && chainB t.stop t.stop []) = true
        simp [chainB]
      · exact wfL_append _ _ houtwf (wfL_single _ hblock)
    | nil =>
      rw [hstk2] at hstk
      have ha : a = 0 := hstk
      subst ha
      refine ⟨0, rfl, ?_, ?_⟩
      · apply chainB_append st.acc _ 0 p t.stop hchain
        exact chainB_leaf_single p .rbrace t.start t.stop _ _ ht1
      · apply wfL_append _ _ hwf
        apply wfL_single
        show decide (t.start ≤ t.stop) = true
        exact decide_eq_true ht2
  · split
    · refine ⟨t.stop, ⟨rfl, ht2, a, hstk, ?_, hwf⟩, ?_, ?_⟩
      · rw [ht1]
        exact hchain
      · simp [chainB]
      · rfl
    · refine ⟨a, hstk, ?_, ?_⟩
      · apply chainB_append st.acc _ a p t.stop hchain
        exact chainB_leaf_single p t.kind t.start t.stop _ _ ht1
      · exact wfL_append _ _ hwf (wfL_single _ (wfT_leafOf t ht2))

theorem stInv_fold : ∀ (toks : List Token) (st : PSt) (p : Nat),
    TokChain p toks → stInv p st → stInv (endPos p toks) (toks.foldl stepP st) := by
  intro toks
  induction toks with
  | nil => intro st p _ h; exact h
  | cons t ts ih =>
    intro st p hchain h
    obtain ⟨h1, h2, h3⟩ := hchain
    rw [endPos_cons, List.foldl_cons]
    exact ih (stepP st t) t.stop h3 (stInv_step st t p h h1 (by omega))

theorem closeAll_wf : ∀ (stk : List (Token × List Tree)) (acc : List Tree) (a e : Nat),
    stkInv stk a → chainB a e acc = true → wfL acc = true →
    chainB 0 e (closeAll e acc stk) = true ∧ wfL (closeAll e acc stk) = true := by
  intro stk
  induction stk with
  | nil =>
    intro acc a e hstk hchain hwf
    have ha : a = 0 := hstk
    subst ha
    exact ⟨hchain, hwf⟩
  | cons fr rest ih =>
    intro acc a e hstk hchain hwf
    obtain ⟨lb, outer⟩ := fr
    obtain ⟨ha, hlb, b, hrest, hout, houtwf⟩ := hstk
    have hchain2 : chainB lb.start e (leafOf lb :: (acc ++ [.leaf .rbrace e e false true])) = true := by
      rw [chainB_cons, tStart_leafOf, tStop_leafOf]
      simp only [decide_eq_true_eq, Bool.and_eq_true]
      refine ⟨by trivial, ?_⟩
      apply chainB_append acc _ lb.stop e e
      · rw [← ha]
        exact hchain
      · exact chainB_leaf_single e .rbrace e e _ _ rfl
    have hwf2 : wfL (leafOf lb :: (acc ++ [.leaf .rbrace e e false true])) = true := by
      show (wfT (leafOf lb) && wfL (acc ++ [.leaf .rbrace e e false true])) = true
      rw [wfT_leafOf lb hlb]
      have hm : wfT (.leaf .rbrace e e false true) = true := by
        show decide (e ≤ e) = true
        simp
      rw [wfL_append acc _ hwf (wfL_single _ hm)]
      rfl
    have hblock : wfT (.node .block lb.start e
        (leafOf lb :: (acc ++ [.leaf .rbrace e e false true]))) = true := by
      show (chainB lb.start e _ && wfL _) = true
      rw [hchain2, hwf2]
      rfl
    apply ih _ b e hrest
    · apply chainB_append outer _ b lb.start e hout
      rw [chainB_cons]
      show (decide (lb.start = lb.start) && chainB e e []) = true
      simp [chainB]
    · exact wfL_append _ _ houtwf (wfL_single _ hblock)

theorem wfT_buildTree (toks : List Token) (len : Nat)
    (hchain : TokChain 0 toks) (hend : endPos 0 toks = len) :
    wfT (buildTree toks len) = true := by
  unfold buildTree
  have hinit : stInv 0 (⟨[], []⟩ : PSt) := ⟨0, rfl, by simp [chainB], rfl⟩
  have hfold := stInv_fold toks ⟨[], []⟩ 0 hchain hinit
  rw [hend] at hfold
  obtain ⟨a, hstk, hchain2, hwf⟩ := hfold
  obtain ⟨hc, hw⟩ := closeAll_wf _ _ a len hstk hchain2 hwf
  show (chainB 0 len (closeAll len _ _) && wfL (closeAll len _ _)) = true
  rw [hc, hw]
  rfl

theorem endPos_tokPos (m : LexMode) (p : Nat) (s : List Byte) :
    endPos p (tokPos m p s) = p + s.length := by
  have key : ∀ m s, ∀ p : Nat, endPos p (tokPos m p s) = p + s.length := by
    apply tokenize_rec (P := fun m s => ∀ p : Nat, endPos p (tokPos m p s) = p + s.length)
    intro m s ih p
    rw [tokPos_eq]
    cases hls : lexStep m s with
    | none =>
      have hs := (lexStep_none_iff m s).mp hls
      subst hs
      simp [endPos]
    | some r =>
      obtain ⟨k, n, m2⟩ := r
      obtain ⟨h1, h2⟩ := lexStep_bounds hls
      rw [endPos_cons]
      have := ih k n m2 hls (p + n)
      rw [List.length_drop] at this
      show endPos (p + n) (tokPos m2 (p + n) (s.drop n)) = p + s.length
      omega
  exact key m s p

theorem wfT_fullParse (S : List Byte) : wfT (fullParse S) = true := by
  apply wfT_buildTree
  · exact tokChain_tokPos .normal 0 S
  · have := endPos_tokPos .normal 0 S
    simpa using this

/-! ## Incremental re-parsing equals full re-parsing -/

theorem tStop_fullParse (S : List Byte) : tStop (fullParse S) = S.length := rfl

theorem applyEdit_take (S : List Byte) (E : Edit) :
    (applyEdit S E).take (min E.start S.length) = S.take (min E.start S.length) := by
  unfold applyEdit
  rw [List.take_append_eq_append_take]
  have h0 : min E.start S.length - (S.take E.start ++ E.inserted).length = 0 := by
    rw [List.length_append, List.length_take]
    omega
  rw [h0, List.take_zero, List.append_nil]
  rw [List.take_append_eq_append_take]
  have h1 : min E.start S.length - (S.take E.start).length = 0 := by
    rw [List.length_take]
    omega
  rw [h1, List.take_zero, List.append_nil, List.take_take]
  rw [Nat.min_eq_left (Nat.min_le_left _ _)]

theorem relex_reconstruct (S2 : List Byte) (nn : Nat) :
    ((lexTokens S2).takeWhile (fun t => decide (t.stop < nn))) ++
      tokPos (modeFold .normal ((lexTokens S2).takeWhile (fun t => decide (t.stop < nn))))
        (endPos 0 ((lexTokens S2).takeWhile (fun t => decide (t.stop < nn))))
        (S2.drop (endPos 0 ((lexTokens S2).takeWhile (fun t => decide (t.stop < nn))))) =
    lexTokens S2 := by
  have hsplit : lexTokens S2 =
      (lexTokens S2).takeWhile (fun t => decide (t.stop < nn)) ++
      (lexTokens S2).dropWhile (fun t => decide (t.stop < nn)) :=
    (List.takeWhile_append_dropWhile _ _).symm
  have hpost := tokPos_split _ _ .normal 0 S2 hsplit
  rw [Nat.sub_zero] at hpost
  conv_rhs => rw [hsplit]
  rw [← hpost]

/-- The central helper: re-parsing incrementally after an edit produces the
same tree as a from-scratch parse of the post-edit text. -/
theorem incremental_eq_full (S : List Byte) (E : Edit) :
    incrementalParse (fullParse S) E (applyEdit S E) = fullParse (applyEdit S E) := by
  have hagree :
      (lexTokens S).takeWhile (fun t => decide (t.stop < min E.start S.length)) =
      (lexTokens (applyEdit S E)).takeWhile
        (fun t => decide (t.stop < min E.start S.length)) := by
    apply takeWhile_stop_agree S.length S (applyEdit S E) .normal 0
      (min E.start S.length) le_rfl
    rw [Nat.sub_zero]
    exact (applyEdit_take S E).symm
  have hstop : tStop (fullParse S) = S.length := rfl
  simp only [incrementalParse]
  rw [treeToks_fullParse, hstop, hagree, relex_reconstruct]
  rfl

/-! ## Round-trip: the leaves of a well-formed tree spell the input -/

theorem sliceB_glue (S : List Byte) (a m b : Nat) (h1 : a ≤ m) (h2 : m ≤ b) :
    sliceB S a m ++ sliceB S m b = sliceB S a b := by
  unfold sliceB
  have hab : b - a = (m - a) + (b - m) := by omega
  have hd : List.drop (m - a) (List.drop a S) = List.drop m S := by
    rw [List.drop_drop]
    congr 1
    omega
  rw [hab, List.take_add, hd]

mutual

theorem tree_le : ∀ t : Tree, wfT t = true → tStart t ≤ tStop t
  | .leaf k a b e m2, h => by
    simp only [wfT, decide_eq_true_eq] at h
    exact h
  | .node sy a b cs, h => by
    simp only [wfT, Bool.and_eq_true] at h
    exact chain_le a b cs h.1 h.2

theorem chain_le : ∀ (a b : Nat) (cs : List Tree),
    chainB a b cs = true → wfL cs = true → a ≤ b
  | a, b, [], hc, _ => by
    simp only [chainB, decide_eq_true_eq] at hc
    omega
  | a, b, t :: ts, hc, hw => by
    rw [chainB_cons] at hc
    simp only [Bool.and_eq_true, decide_eq_true_eq] at hc
    simp only [wfL, Bool.and_eq_true] at hw
    have h1 := tree_le t hw.1
    have h2 := chain_le (tStop t) b ts hc.2 hw.2
    omega

end

mutual

theorem spanT_eq : ∀ (S : List Byte) (t : Tree), wfT t = true →
    spanT S t = sliceB S (tStart t) (tStop t)
  | S, .leaf k a b e m2, _ => rfl
  | S, .node sy a b cs, h => by
    simp only [wfT, Bool.and_eq_true] at h
    show spanL S cs = sliceB S a b
    exact spanL_eq S a b cs h.1 h.2

theorem spanL_eq : ∀ (S : List Byte) (a b : Nat) (cs : List Tree),
    chainB a b cs = true → wfL cs = true → spanL S cs = sliceB S a b
  | S, a, b, [], hc, _ => by
    simp only [chainB, decide_eq_true_eq] at hc
    subst hc
    show ([] : List Byte) = sliceB S a a
    simp [sliceB]
  | S, a, b, t :: ts, hc, hw => by
    rw [chainB_cons] at hc
    simp only [Bool.and_eq_true, decide_eq_true_eq] at hc
    simp only [wfL, Bool.and_eq_true] at hw
    show spanT S t ++ spanL S ts = sliceB S a b
    rw [spanT_eq S t hw.1, spanL_eq S (tStop t) b ts hc.2 hw.2, hc.1]
    exact sliceB_glue S a (tStop t) b
      (by rw [← hc.1]; exact tree_le t hw.1)
      (chain_le (tStop t) b ts hc.2 hw.2)

end

theorem spanT_fullParse (S : List Byte) : spanT S (fullParse S) = S := by
  have hwf := wfT_fullParse S
  have h := spanT_eq S (fullParse S) hwf
  rw [h]
  show sliceB S 0 S.length = S
  unfold sliceB
  simp

/-! ## Structural tree equality is reflexive -/

mutual

theorem teq_refl : ∀ t : Tree, teq t t = true
  | .leaf k a b e m2 => by simp [teq]
  | .node sy a b cs => by
    simp only [teq, Bool.and_eq_true, decide_eq_true_eq]
    exact ⟨⟨⟨trivial, trivial⟩, trivial⟩, teqL_refl cs⟩

theorem teqL_refl : ∀ cs : List Tree, teqL cs cs = true
  | [] => rfl
  | t :: ts => by
    simp only [teqL, Bool.and_eq_true]
    exact ⟨teq_refl t, teqL_refl ts⟩

end

/-! ## Linear size bound: parsing work is proportional to input length -/

theorem sizeL_nil : sizeL [] = 0 := rfl

theorem sizeL_cons (t : Tree) (ts : List Tree) :
    sizeL (t :: ts) = sizeT t + sizeL ts := rfl

theorem sizeT_node (sy : Sym) (a b : Nat) (cs : List Tree) :
    sizeT (.node sy a b cs) = 1 + sizeL cs := rfl

theorem sizeT_leaf (k : TokKind) (a b : Nat) (e m : Bool) :
    sizeT (.leaf k a b e m) = 1 := rfl

theorem sizeT_leafOf (t : Token) : sizeT (leafOf t) = 1 := rfl

theorem sizeL_append : ∀ l1 l2 : List Tree, sizeL (l1 ++ l2) = sizeL l1 + sizeL l2
  | [], l2 => by simp [sizeL_nil]
  | t :: ts, l2 => by
    show sizeT t + sizeL (ts ++ l2) = sizeT t + sizeL ts + sizeL l2
    rw [sizeL_append ts l2]
    omega

/-- Node budget still held inside the open frames. -/
def frameW : List (Token × List Tree) → Nat
  | [] => 0
  | (_, outer) :: rest => sizeL outer + 2 + frameW rest

/-- Node budget of a parse state. -/
def stW (st : PSt) : Nat := sizeL st.acc + frameW st.stk

theorem stW_step (st : PSt) (t : Token) : stW (stepP st t) ≤ stW st + 2 := by
  unfold stW stepP
  split
  · cases hstk : st.stk with
    | cons fr rest =>
      obtain ⟨lb, outer⟩ := fr
      show sizeL (outer ++ [.node .block lb.start t.stop
          (leafOf lb :: (st.acc ++ [leafOf t]))]) + frameW rest ≤
          sizeL st.acc + frameW ((lb, outer) :: rest) + 2
      rw [sizeL_append]
      show sizeL outer + (sizeT (.node .block lb.start t.stop
          (leafOf lb :: (st.acc ++ [leafOf t]))) + sizeL []) + frameW rest ≤
          sizeL st.acc + (sizeL outer + 2 + frameW rest) + 2
      rw [sizeT_node, sizeL_cons, sizeL_append, sizeT_leafOf, sizeL_nil]
      show sizeL outer + (1 + (1 + (sizeL st.acc + (sizeT (leafOf t) + sizeL []))) + 0) +
          frameW rest ≤ _
      rw [sizeT_leafOf, sizeL_nil]
      omega
    | nil =>
      show sizeL (st.acc ++ [.leaf .rbrace t.start t.stop true false]) + frameW [] ≤
          sizeL st.acc + frameW [] + 2
      rw [sizeL_append, sizeL_cons, sizeT_leaf, sizeL_nil]
      show sizeL st.acc + (1 + 0) + 0 ≤ sizeL st.acc + 0 + 2
      omega
  · split
    · show sizeL [] + (sizeL st.acc + 2 + frameW st.stk) ≤
          sizeL st.acc + frameW st.stk + 2
      rw [sizeL_nil]
      omega
    · show sizeL (st.acc ++ [leafOf t]) + frameW st.stk ≤ sizeL st.acc + frameW st.stk + 2
      rw [sizeL_append, sizeL_cons, sizeT_leafOf, sizeL_nil]
      omega

theorem stW_fold : ∀ (toks : List Token) (st : PSt),
    stW (toks.foldl stepP st) ≤ stW st + 2 * toks.length := by
  intro toks
  induction toks with
  | nil => intro st; simp
  | cons t ts ih =>
    intro st
    rw [List.foldl_cons]
    have h1 := ih (stepP st t)
    have h2 := stW_step st t
    simp only [List.length_cons]
    omega

theorem stkLen_step (st : PSt) (t : Token) :
    (stepP st t).stk.length ≤ st.stk.length + 1 := by
  unfold stepP
  split
  · cases hstk : st.stk with
    | cons fr rest =>
      obtain ⟨lb, outer⟩ := fr
      show rest.length ≤ ((lb, outer) :: rest).length + 1
      simp
      omega
    | nil => simp
  · split
    · show ((t, st.acc) :: st.stk).length ≤ st.stk.length + 1
      simp
    · simp

theorem stkLen_fold : ∀ (toks : List Token) (st : PSt),
    (toks.foldl stepP st).stk.length ≤ st.stk.length + toks.length := by
  intro toks
  induction toks with
  | nil => intro st; simp
  | cons t ts ih =>
    intro st
    rw [List.foldl_cons]
    have h1 := ih (stepP st t)
    have h2 := stkLen_step st t
    simp only [List.length_cons]
    omega

theorem closeAll_size : ∀ (stk : List (Token × List Tree)) (acc : List Tree) (e : Nat),
    sizeL (closeAll e acc stk) ≤ sizeL acc + frameW stk + stk.length := by
  intro stk
  induction stk with
  | nil =>
    intro acc e
    show sizeL acc ≤ sizeL acc + 0 + 0
    omega
  | cons fr rest ih =>
    intro acc e
    obtain ⟨lb, outer⟩ := fr
    show sizeL (closeAll e (outer ++ [.node .block lb.start e
        (leafOf lb :: (acc ++ [.leaf .rbrace e e false true]))]) rest) ≤
        sizeL acc + frameW ((lb, outer) :: rest) + ((lb, outer) :: rest).length
    have h := ih (outer ++ [.node .block lb.start e
        (leafOf lb :: (acc ++ [.leaf .rbrace e e false true]))]) e
    rw [sizeL_append, sizeL_cons, sizeT_node, sizeL_cons, sizeT_leafOf, sizeL_append,
      sizeL_cons, sizeT_leaf, sizeL_nil] at h
    show _ ≤ sizeL acc + (sizeL outer + 2 + frameW rest) + (rest.length + 1)
    omega

theorem sizeT_buildTree (toks : List Token) (len : Nat) :
    sizeT (buildTree toks len) ≤ 3 * toks.length + 1 := by
  unfold buildTree
  rw [sizeT_node]
  have h1 := closeAll_size (toks.foldl stepP ⟨[], []⟩).stk
    (toks.foldl stepP ⟨[], []⟩).acc len
  have h2 := stW_fold toks ⟨[], []⟩
  have h3 := stkLen_fold toks ⟨[], []⟩
  unfold stW at h2
  have hinit : sizeL (⟨[], []⟩ : PSt).acc + frameW (⟨[], []⟩ : PSt).stk = 0 := rfl
  rw [hinit] at h2
  have hinit2 : (⟨[], []⟩ : PSt).stk.length = 0 := rfl
  rw [hinit2] at h3
  omega

theorem withPos_length : ∀ (l : List (TokKind × Nat)) (p : Nat),
    (withPos p l).length = l.length := by
  intro l
  induction l with
  | nil => intro p; rfl
  | cons kn l ih =>
    intro p
    obtain ⟨k, n⟩ := kn
    show (withPos p ((k, n) :: l)).length = l.length + 1
    rw [withPos]
    simp only [List.length_cons]
    rw [ih (p + n)]

theorem lexTokens_count (S : List Byte) : (lexTokens S).length ≤ S.length := by
  unfold lexTokens tokPos
  rw [withPos_length]
  exact tokenize_count .normal S

/-! ## Corrupted regions are covered by error-marked leaves -/

mutual

/-- Every non-missing leaf of error-token kind carries the is-error flag. -/
def errOkT : Tree → Bool
  | .leaf k _ _ e _ => !decide (k = .errorTok) || e
  | .node _ _ _ cs => errOkL cs

/-- The error-flag discipline over a list of trees. -/
def errOkL : List Tree → Bool
  | [] => true
  | t :: ts => errOkT t && errOkL ts

end

theorem errOkL_append : ∀ l1 l2 : List Tree,
    errOkL l1 = true → errOkL l2 = true → errOkL (l1 ++ l2) = true := by
  intro l1
  induction l1 with
  | nil => intro l2 _ h2; simpa using h2
  | cons t ts ih =>
    intro l2 h1 h2
    simp only [errOkL, Bool.and_eq_true] at h1
    show (errOkT t && errOkL (ts ++ l2)) = true
    simp only [Bool.and_eq_true]
    exact ⟨h1.1, ih l2 h1.2 h2⟩

theorem errOkT_leafOf (t : Token) : errOkT (leafOf t) = true := by
  show (!decide (t.kind = .errorTok) || decide (t.kind = .errorTok)) = true
  cases decide (t.kind = .errorTok) <;> rfl

theorem errOkL_single (x : Tree) (h : errOkT x = true) : errOkL [x] = true := by
  show (errOkT x && errOkL []) = true
  simp [errOkL, h]

/-- The error-flag discipline over the open frames. -/
def frameErrOk : List (Token × List Tree) → Bool
  | [] => true
  | (_, outer) :: rest => errOkL outer && frameErrOk rest

theorem errOk_step (st : PSt) (t : Token)
    (h1 : errOkL st.acc = true) (h2 : frameErrOk st.stk = true) :
    errOkL (stepP st t).acc = true ∧ frameErrOk (stepP st t).stk = true := by
  unfold stepP
  split
  · cases hstk : st.stk with
    | cons fr rest =>
      obtain ⟨lb, outer⟩ := fr
      rw [hstk] at h2
      simp only [frameErrOk, Bool.and_eq_true] at h2
      constructor
      · apply errOkL_append _ _ h2.1
        apply errOkL_single
        show errOkL (leafOf lb :: (st.acc ++ [leafOf t])) = true
        show (errOkT (leafOf lb) && errOkL (st.acc ++ [leafOf t])) = true
        rw [errOkT_leafOf]
        rw [errOkL_append _ _ h1 (errOkL_single _ (errOkT_leafOf t))]
        rfl
      · exact h2.2
    | nil =>
      constructor
      · apply errOkL_append _ _ h1
        apply errOkL_single
        show (!decide (TokKind.rbrace = TokKind.errorTok) || true) = true
        rfl
      · rfl
  · split
    · exact ⟨rfl, by
        show (errOkL st.acc && frameErrOk st.stk) = true
        simp [h1, h2]⟩
    · exact ⟨errOkL_append _ _ h1 (errOkL_single _ (errOkT_leafOf t)), h2⟩

theorem errOk_fold : ∀ (toks : List Token) (st : PSt),
    errOkL st.acc = true → frameErrOk st.stk = true →
    errOkL (toks.foldl stepP st).acc = true ∧
    frameErrOk (toks.foldl stepP st).stk = true := by
  intro toks
  induction toks with
  | nil => intro st h1 h2; exact ⟨h1, h2⟩
  | cons t ts ih =>
    intro st h1 h2
    rw [List.foldl_cons]
    obtain ⟨g1, g2⟩ := errOk_step st t h1 h2
    exact ih (stepP st t) g1 g2

theorem errOk_closeAll : ∀ (stk : List (Token × List Tree)) (acc : List Tree) (e : Nat),
    errOkL acc = true → frameErrOk stk = true →
    errOkL (closeAll e acc stk) = true := by
  intro stk
  induction stk with
  | nil => intro acc e h1 _; exact h1
  | cons fr rest ih =>
    intro acc e h1 h2
    obtain ⟨lb, outer⟩ := fr
    simp only [frameErrOk, Bool.and_eq_true] at h2
    show errOkL (closeAll e (outer ++ [.node .block lb.start e
        (leafOf lb :: (acc ++ [.leaf .rbrace e e false true]))]) rest) = true
    apply ih _ e _ h2.2
    apply errOkL_append _ _ h2.1
    apply errOkL_single
    show (errOkT (leafOf lb) && errOkL (acc ++ [.leaf .rbrace e e false true])) = true
    rw [errOkT_leafOf]
    have hm : errOkT (.leaf .rbrace e e false true) = true := rfl
    rw [errOkL_append _ _ h1 (errOkL_single _ hm)]
    rfl

theorem errOk_buildTree (toks : List Token) (len : Nat) :
    errOkT (buildTree toks len) = true := by
  unfold buildTree
  show errOkL (closeAll len _ _) = true
  obtain ⟨g1, g2⟩ := errOk_fold toks ⟨[], []⟩ rfl rfl
  exact errOk_closeAll _ _ len g1 g2

mutual

theorem errFindT : ∀ (T : Tree), errOkT T = true → ∀ tk, tk ∈ treeToks T →
    tk.kind = .errorTok →
    ∃ l, l ∈ leavesT T ∧ tErr l = true ∧ tStart l = tk.start ∧ tStop l = tk.stop
  | .leaf k a b e m2, h, tk, hmem, hkind => by
    simp only [treeToks] at hmem
    by_cases hm : m2 = true
    · rw [if_pos hm] at hmem
      simp at hmem
    · rw [if_neg hm] at hmem
      simp only [List.mem_singleton] at hmem
      subst hmem
      refine ⟨.leaf k a b e m2, by simp [leavesT], ?_, rfl, rfl⟩
      show e = true
      simp only [errOkT, Bool.or_eq_true, Bool.not_eq_true', decide_eq_false_iff_not] at h
      cases h with
      | inl hne => exact absurd hkind hne
      | inr he => exact he
  | .node sy a b cs, h, tk, hmem, hkind => by
    simp only [treeToks] at hmem
    have hh : errOkL cs = true := h
    obtain ⟨l, hl, he, hs, hp⟩ := errFindL cs hh tk hmem hkind
    exact ⟨l, by simpa [leavesT] using hl, he, hs, hp⟩

theorem errFindL : ∀ (cs : List Tree), errOkL cs = true → ∀ tk, tk ∈ listToks cs →
    tk.kind = .errorTok →
    ∃ l, l ∈ leavesL cs ∧ tErr l = true ∧ tStart l = tk.start ∧ tStop l = tk.stop
  | [], _, tk, hmem, _ => by simp [listToks] at hmem
  | t :: ts, h, tk, hmem, hkind => by
    simp only [errOkL, Bool.and_eq_true] at h
    simp only [listToks, List.mem_append] at hmem
    cases hmem with
    | inl hm =>
      obtain ⟨l, hl, he, hs, hp⟩ := errFindT t h.1 tk hm hkind
      exact ⟨l, by simp [leavesL, List.mem_append, hl], he, hs, hp⟩
    | inr hm =>
      obtain ⟨l, hl, he, hs, hp⟩ := errFindL ts h.2 tk hm hkind
      exact ⟨l, by simp [leavesL, List.mem_append, hl], he, hs, hp⟩

end

theorem byte_in_takeWhile {p : Byte → Bool} : ∀ (s : List Byte) (i : Nat),
    i < (s.takeWhile p).length → p (s.getD i 0) = true := by
  intro s
  induction s with
  | nil => intro i h; simp at h
  | cons a t ih =>
    intro i h
    by_cases hpa : p a = true
    · rw [List.takeWhile_cons, if_pos hpa] at h
      simp only [List.length_cons] at h
      cases i with
      | zero => exact hpa
      | succ j =>
        show p (t.getD j 0) = true
        exact ih j (by omega)
    · rw [List.takeWhile_cons, if_neg hpa] at h
      simp at h

theorem lexStep_nonerror_bytes {m : LexMode} {s : List Byte} {k : TokKind} {n : Nat}
    {m2 : LexMode} (h : lexStep m s = some (k, n, m2)) (hk : k ≠ .errorTok) :
    ∀ i, i < n → isRecognized (s.getD i 0) = true := by
  intro i hi
  cases s with
  | nil => simp [lexStep] at h
  | cons b t =>
    simp only [lexStep] at h
    repeat' split at h
    all_goals
      simp only [Option.some.injEq, Prod.mk.injEq] at h
      obtain ⟨hkk, hn, hm⟩ := h
      subst hn
    · rename_i hg1
      have hby := byte_in_takeWhile (p := isLetter) (b :: t) i hi
      simp only [isRecognized, Bool.or_eq_true]
      exact Or.inl (Or.inl (Or.inl hby))
    · rename_i hg1 hg2
      have hby := byte_in_takeWhile (p := isDigit) (b :: t) i hi
      simp only [isRecognized, Bool.or_eq_true]
      exact Or.inl (Or.inl (Or.inr hby))
    · rename_i hg1 hg2 hg3
      have hby := byte_in_takeWhile (p := isWS) (b :: t) i hi
      simp only [isRecognized, Bool.or_eq_true]
      exact Or.inl (Or.inr hby)
    · rename_i hg4
      have hi0 : i = 0 := by omega
      subst hi0
      show isRecognized b = true
      simp [isRecognized, isPunct, hg4]
    · rename_i hg5
      have hi0 : i = 0 := by omega
      subst hi0
      show isRecognized b = true
      simp [isRecognized, isPunct, hg5]
    · rename_i hg6
      have hi0 : i = 0 := by omega
      subst hi0
      show isRecognized b = true
      simp [isRecognized, isPunct, hg6]
    · rename_i hg7
      have hi0 : i = 0 := by omega
      subst hi0
      show isRecognized b = true
      simp [isRecognized, isPunct, hg7]
    · rename_i hg8
      have hi0 : i = 0 := by omega
      subst hi0
      show isRecognized b = true
      simp [isRecognized, isPunct, hg8]
    · rename_i hg9
      have hi0 : i = 0 := by omega
      subst hi0
      show isRecognized b = true
      simp [isRecognized, isPunct, hg9]
    · exact absurd hkk.symm hk

theorem err_token_exists : ∀ (m : LexMode) (s : List Byte) (p i : Nat),
    i < s.length → isRecognized (s.getD i 0) = false →
    ∃ t, t ∈ tokPos m p s ∧ t.kind = .errorTok ∧ t.start ≤ p + i ∧ p + i < t.stop := by
  have key : ∀ m s, ∀ p i : Nat, i < s.length → isRecognized (s.getD i 0) = false →
      ∃ t, t ∈ tokPos m p s ∧ t.kind = .errorTok ∧ t.start ≤ p + i ∧ p + i < t.stop := by
    apply tokenize_rec (P := fun m s => ∀ p i : Nat, i < s.length →
      isRecognized (s.getD i 0) = false →
      ∃ t, t ∈ tokPos m p s ∧ t.kind = .errorTok ∧ t.start ≤ p + i ∧ p + i < t.stop)
    intro m s ih p i hi hrec
    cases hls : lexStep m s with
    | none =>
      have hs := (lexStep_none_iff m s).mp hls
      subst hs
      simp at hi
    | some r =>
      obtain ⟨k, n, m2⟩ := r
      obtain ⟨h1, h2⟩ := lexStep_bounds hls
      rw [tokPos_eq, hls]
      by_cases hin : i < n
      · by_cases hke : k = .errorTok
        · refine ⟨⟨k, p, p + n⟩, List.mem_cons_self _ _, hke, ?_, ?_⟩
          · show p ≤ p + i
            omega
          · show p + i < p + n
            omega
        · have := lexStep_nonerror_bytes hls hke i hin
          rw [this] at hrec
          simp at hrec
      · have hlen : i - n < (s.drop n).length := by
          rw [List.length_drop]
          omega
        have hbyte : isRecognized ((s.drop n).getD (i - n) 0) = false := by
          rw [List.getD_eq_getElem?_getD, List.getElem?_drop]
          have hni : n + (i - n) = i := by omega
          rw [hni, ← List.getD_eq_getElem?_getD]
          exact hrec
        obtain ⟨t, hmem, hkind, hs1, hs2⟩ := ih k n m2 hls (p + n) (i - n) hlen hbyte
        refine ⟨t, List.mem_cons_of_mem _ hmem, hkind, ?_, ?_⟩
        · have : p + n + (i - n) = p + i := by omega
          omega
        · have : p + n + (i - n) = p + i := by omega
          omega
  exact key

/-- Every corrupted (unrecognized) byte of the input is covered by an
error-marked leaf of the parse tree. -/
theorem err_leaf_covers (S : List Byte) (i : Nat) (hi : i < S.length)
    (hb : isRecognized (S.getD i 0) = false) :
    ∃ l, l ∈ leavesT (fullParse S) ∧ tErr l = true ∧ tStart l ≤ i ∧ i < tStop l := by
  obtain ⟨t, hmem, hkind, hs1, hs2⟩ := err_token_exists .normal S 0 i hi hb
  have hmem2 : t ∈ treeToks (fullParse S) := by
    rw [treeToks_fullParse]
    exact hmem
  obtain ⟨l, hl, he, hls, hlp⟩ :=
    errFindT (fullParse S) (errOk_buildTree (lexTokens S) S.length) t hmem2 hkind
  refine ⟨l, hl, he, ?_, ?_⟩
  · omega
  · omega

/-! ## Longest-match token classification -/

/-- Modelled from the spec: the match relation of the lexical rules — kind
`k` can match a lexeme consisting of the first `n` bytes of `s`.  Keywords
match exactly their spelling; identifier, number, whitespace and error
tokens match any non-empty prefix of bytes of their class; punctuation
matches its single byte. -/
def Matches (k : TokKind) (s : List Byte) (n : Nat) : Prop :=
  match k with
  | .kwFunc => n = kwFuncB.length ∧ s.take n = kwFuncB
  | .kwRequires => n = kwRequiresB.length ∧ s.take n = kwRequiresB
  | .kwEnsures => n = kwEnsuresB.length ∧ s.take n = kwEnsuresB
  | .kwInvariant => n = kwInvariantB.length ∧ s.take n = kwInvariantB
  | .ident => 1 ≤ n ∧ n ≤ s.length ∧ (s.take n).all isLetter = true
  | .number => 1 ≤ n ∧ n ≤ s.length ∧ (s.take n).all isDigit = true
  | .space => 1 ≤ n ∧ n ≤ s.length ∧ (s.take n).all isWS = true
  | .lbrace => n = 1 ∧ s.take 1 = [123]
  | .rbrace => n = 1 ∧ s.take 1 = [125]
  | .lparen => n = 1 ∧ s.take 1 = [40]
  | .rparen => n = 1 ∧ s.take 1 = [41]
  | .gtOp => n = 1 ∧ s.take 1 = [62]
  | .atMark => n = 1 ∧ s.take 1 = [64]
  | .errorTok => 1 ≤ n ∧ n ≤ s.length ∧ (s.take n).all (fun b => !isRecognized b) = true

/-- Modelled from the spec: the fixed per-rule priority used to break
equal-length ties — the host keyword outranks identifiers everywhere, the
annotation keywords outrank identifiers only in annotation lexical mode. -/
def priority (m : LexMode) : TokKind → Nat
  | .kwFunc => 2
  | .kwRequires => if m = .annot then 2 else 0
  | .kwEnsures => if m = .annot then 2 else 0
  | .kwInvariant => if m = .annot then 2 else 0
  | _ => 1

theorem priority_le_two (m : LexMode) (k : TokKind) : priority m k ≤ 2 := by
  cases k <;> cases m <;> simp [priority]

theorem isLetter_iff {b : Byte} :
    isLetter b = true ↔ (65 ≤ b ∧ b ≤ 90) ∨ (97 ≤ b ∧ b ≤ 122) := by
  simp [isLetter]

theorem isDigit_iff {b : Byte} : isDigit b = true ↔ 48 ≤ b ∧ b ≤ 57 := by
  simp [isDigit]

theorem isWS_iff {b : Byte} : isWS b = true ↔ b = 32 ∨ b = 10 ∨ b = 9 := by
  simp [isWS]

theorem letter_recognized {b : Byte} (h : isLetter b = true) :
    isRecognized b = true := by
  simp [isRecognized, h]

theorem digit_recognized {b : Byte} (h : isDigit b = true) :
    isRecognized b = true := by
  simp [isRecognized, h]

theorem ws_recognized {b : Byte} (h : isWS b = true) :
    isRecognized b = true := by
  simp [isRecognized, h]

theorem punct_recognized {b : Byte} (h : isPunct b = true) :
    isRecognized b = true := by
  simp [isRecognized, h]

theorem all_take_le_takeWhile {p : Byte → Bool} :
    ∀ (s : List Byte) (n : Nat), (s.take n).all p = true → n ≤ s.length →
    n ≤ (s.takeWhile p).length := by
  intro s
  induction s with
  | nil => intro n _ h2; simpa using h2
  | cons a t ih =>
    intro n h1 h2
    cases n with
    | zero => omega
    | succ j =>
      rw [List.take_succ_cons] at h1
      simp only [List.all_cons, Bool.and_eq_true] at h1
      rw [List.takeWhile_cons, if_pos h1.1]
      simp only [List.length_cons]
      have := ih j h1.2 (by simpa using h2)
      omega

theorem takeWhile_eq_take (p : Byte → Bool) :
    ∀ s : List Byte, s.takeWhile p = s.take ((s.takeWhile p).length) := by
  intro s
  induction s with
  | nil => rfl
  | cons a t ih =>
    by_cases hpa : p a = true
    · rw [List.takeWhile_cons, if_pos hpa]
      simp only [List.length_cons]
      rw [List.take_succ_cons, ← ih]
    · rw [List.takeWhile_cons, if_neg hpa]
      rfl

theorem all_head {p : Byte → Bool} (b : Byte) (t : List Byte) (n2 : Nat) (h1 : 1 ≤ n2)
    (hall : ((b :: t).take n2).all p = true) : p b = true := by
  cases n2 with
  | zero => omega
  | succ j =>
    rw [List.take_succ_cons] at hall
    simp only [List.all_cons, Bool.and_eq_true] at hall
    exact hall.1

theorem kw_match_le_run (w : List Byte) (hw : w.all isLetter = true)
    (s : List Byte) (n2 : Nat) (hn2 : n2 = w.length) (htk : s.take n2 = w) :
    n2 ≤ (s.takeWhile isLetter).length := by
  apply all_take_le_takeWhile
  · rw [htk]
    exact hw
  · have hc := congrArg List.length htk
    rw [List.length_take] at hc
    omega

theorem kw_match_head (w : List Byte) (b : Byte) (t : List Byte) (n2 : Nat)
    (hw : w.all isLetter = true) (hpos : 1 ≤ w.length)
    (hn2 : n2 = w.length) (htk : (b :: t).take n2 = w) : isLetter b = true := by
  have hall : ((b :: t).take n2).all isLetter = true := by
    rw [htk]
    exact hw
  exact all_head b t n2 (by omega) hall

theorem punct_match_head (b : Byte) (t : List Byte) (bv : Byte)
    (h : (b :: t).take 1 = [bv]) : b = bv := by
  rw [List.take_succ_cons, List.take_zero] at h
  injection h

theorem not_letter_digit {b : Nat} (h1 : (65 ≤ b ∧ b ≤ 90) ∨ (97 ≤ b ∧ b ≤ 122))
    (h2 : 48 ≤ b ∧ b ≤ 57) : False := by omega

theorem not_letter_ws {b : Nat} (h1 : (65 ≤ b ∧ b ≤ 90) ∨ (97 ≤ b ∧ b ≤ 122))
    (h2 : b = 32 ∨ b = 10 ∨ b = 9) : False := by omega

theorem not_digit_ws {b : Nat} (h1 : 48 ≤ b ∧ b ≤ 57)
    (h2 : b = 32 ∨ b = 10 ∨ b = 9) : False := by omega

theorem no_kw_of_head {b : Byte} {t : List Byte} (hg1 : ¬isLetter b = true)
    (w : List Byte) (hwall : w.all isLetter = true) (hpos : 1 ≤ w.length)
    (n2 : Nat) (h1 : n2 = w.length) (h2 : (b :: t).take n2 = w) : False :=
  hg1 (kw_match_head w b t n2 hwall hpos h1 h2)

theorem punct_longest (bv : Byte) (t : List Byte)
    (hg1 : ¬ isLetter bv = true) (hg2 : ¬ isDigit bv = true)
    (hg3 : ¬ isWS bv = true) (hpunct : isPunct bv = true) :
    ∀ k2 n2, Matches k2 (bv :: t) n2 → n2 ≤ 1 := by
  intro k2 n2 hm2
  cases k2 <;> simp only [Matches] at hm2
  · exact (no_kw_of_head hg1 kwFuncB (by decide) (by decide) n2 hm2.1 hm2.2).elim
  · exact (no_kw_of_head hg1 kwRequiresB (by decide) (by decide) n2 hm2.1 hm2.2).elim
  · exact (no_kw_of_head hg1 kwEnsuresB (by decide) (by decide) n2 hm2.1 hm2.2).elim
  · exact (no_kw_of_head hg1 kwInvariantB (by decide) (by decide) n2 hm2.1 hm2.2).elim
  · exact absurd (all_head bv t n2 hm2.1 hm2.2.2) hg1
  · exact absurd (all_head bv t n2 hm2.1 hm2.2.2) hg2
  · exact absurd (all_head bv t n2 hm2.1 hm2.2.2) hg3
  · exact Nat.le_of_eq hm2.1
  · exact Nat.le_of_eq hm2.1
  · exact Nat.le_of_eq hm2.1
  · exact Nat.le_of_eq hm2.1
  · exact Nat.le_of_eq hm2.1
  · exact Nat.le_of_eq hm2.1
  · exfalso
    have hd := all_head bv t n2 hm2.1 hm2.2.2
    simp only [Bool.not_eq_true'] at hd
    rw [punct_recognized hpunct] at hd
    exact Bool.noConfusion hd

theorem punct_priority (m : LexMode) (bv : Byte) (t : List Byte) (kk : TokKind)
    (hg1 : ¬ isLetter bv = true) (hk : priority m kk = 1) :
    ∀ k2, Matches k2 (bv :: t) 1 → priority m k2 ≤ priority m kk := by
  intro k2 hm2
  cases k2 <;> simp only [Matches] at hm2
  · exact (no_kw_of_head hg1 kwFuncB (by decide) (by decide) _ hm2.1 hm2.2).elim
  · exact (no_kw_of_head hg1 kwRequiresB (by decide) (by decide) _ hm2.1 hm2.2).elim
  · exact (no_kw_of_head hg1 kwEnsuresB (by decide) (by decide) _ hm2.1 hm2.2).elim
  · exact (no_kw_of_head hg1 kwInvariantB (by decide) (by decide) _ hm2.1 hm2.2).elim
  all_goals rw [hk]
  all_goals simp [priority]

theorem punct_errconc (bv : Byte) (t : List Byte) (k : TokKind)
    (hpunct : isPunct bv = true) :
    ∀ b2, (bv :: t).head? = some b2 → isRecognized b2 = false → k = .errorTok := by
  intro b2 hb2 hrec
  exfalso
  simp only [List.head?_cons, Option.some.injEq] at hb2
  subst hb2
  rw [punct_recognized hpunct] at hrec
  exact Bool.noConfusion hrec

theorem lexStep_matches {m : LexMode} {s : List Byte} {k : TokKind} {n : Nat}
    {m2 : LexMode} (h : lexStep m s = some (k, n, m2)) :
    Matches k s n ∧
    (∀ k2 n2, Matches k2 s n2 → n2 ≤ n) ∧
    (∀ k2, Matches k2 s n → priority m k2 ≤ priority m k) ∧
    (∀ b, s.head? = some b → isRecognized b = false → k = .errorTok) := by
  cases s with
  | nil => simp [lexStep] at h
  | cons b t =>
    simp only [lexStep] at h
    repeat' split at h
    all_goals
      simp only [Option.some.injEq, Prod.mk.injEq] at h
      obtain ⟨hkk, hn, hm⟩ := h
      subst hkk
      subst hn
    -- letter branch
    · rename_i hg1
      have hw : (b :: t).takeWhile isLetter =
          (b :: t).take ((b :: t).takeWhile isLetter).length :=
        takeWhile_eq_take isLetter (b :: t)
      refine ⟨?_, ?_, ?_, ?_⟩
      · unfold classifyWord
        repeat' split
        · rename_i he1
          exact ⟨by rw [he1], by rw [← hw]; exact he1⟩
        · rename_i he1 he2
          exact ⟨by rw [he2.2], by rw [← hw]; exact he2.2⟩
        · rename_i he1 he2 he3
          exact ⟨by rw [he3.2], by rw [← hw]; exact he3.2⟩
        · rename_i he1 he2 he3 he4
          exact ⟨by rw [he4.2], by rw [← hw]; exact he4.2⟩
        · refine ⟨length_takeWhile_pos t hg1, (List.takeWhile_sublist _).length_le, ?_⟩
          rw [← hw]
          exact List.all_takeWhile ..
      · intro k2 n2 hm2
        cases k2 <;> simp only [Matches] at hm2
        · exact kw_match_le_run kwFuncB (by decide) _ n2 hm2.1 hm2.2
        · exact kw_match_le_run kwRequiresB (by decide) _ n2 hm2.1 hm2.2
        · exact kw_match_le_run kwEnsuresB (by decide) _ n2 hm2.1 hm2.2
        · exact kw_match_le_run kwInvariantB (by decide) _ n2 hm2.1 hm2.2
        · exact all_take_le_takeWhile _ n2 hm2.2.2 hm2.2.1
        · exact (not_letter_digit (isLetter_iff.mp hg1)
            (isDigit_iff.mp (all_head b t n2 hm2.1 hm2.2.2))).elim
        · exact (not_letter_ws (isLetter_iff.mp hg1)
            (isWS_iff.mp (all_head b t n2 hm2.1 hm2.2.2))).elim
        · have hb2 := punct_match_head b t 123 hm2.2
          subst hb2
          exact absurd hg1 (by decide)
        · have hb2 := punct_match_head b t 125 hm2.2
          subst hb2
          exact absurd hg1 (by decide)
        · have hb2 := punct_match_head b t 40 hm2.2
          subst hb2
          exact absurd hg1 (by decide)
        · have hb2 := punct_match_head b t 41 hm2.2
          subst hb2
          exact absurd hg1 (by decide)
        · have hb2 := punct_match_head b t 62 hm2.2
          subst hb2
          exact absurd hg1 (by decide)
        · have hb2 := punct_match_head b t 64 hm2.2
          subst hb2
          exact absurd hg1 (by decide)
        · exfalso
          have hd := all_head b t n2 hm2.1 hm2.2.2
          simp only [Bool.not_eq_true'] at hd
          rw [letter_recognized hg1] at hd
          exact Bool.noConfusion hd
      · intro k2 hm2
        show priority m k2 ≤ priority m (classifyWord m ((b :: t).takeWhile isLetter))
        unfold classifyWord
        repeat' split
        · have h2 : priority m .kwFunc = 2 := rfl
          rw [h2]
          exact priority_le_two m k2
        · rename_i he1 he2
          have h2 : priority m .kwRequires = 2 := by
            simp [priority, he2.1]
          rw [h2]
          exact priority_le_two m k2
        · rename_i he1 he2 he3
          have h2 : priority m .kwEnsures = 2 := by
            simp [priority, he3.1]
          rw [h2]
          exact priority_le_two m k2
        · rename_i he1 he2 he3 he4
          have h2 : priority m .kwInvariant = 2 := by
            simp [priority, he4.1]
          rw [h2]
          exact priority_le_two m k2
        · rename_i he1 he2 he3 he4
          cases k2 <;> simp only [Matches] at hm2
          · exfalso
            apply he1
            rw [hw]
            exact hm2.2
          · by_cases hma : m = .annot
            · exfalso
              exact he2 ⟨hma, by rw [hw]; exact hm2.2⟩
            · show priority m .kwRequires ≤ priority m .ident
              simp [priority, hma]
          · by_cases hma : m = .annot
            · exfalso
              exact he3 ⟨hma, by rw [hw]; exact hm2.2⟩
            · show priority m .kwEnsures ≤ priority m .ident
              simp [priority, hma]
          · by_cases hma : m = .annot
            · exfalso
              exact he4 ⟨hma, by rw [hw]; exact hm2.2⟩
            · show priority m .kwInvariant ≤ priority m .ident
              simp [priority, hma]
          all_goals simp [priority]
      · intro b2 hb2 hrec
        exfalso
        simp only [List.head?_cons, Option.some.injEq] at hb2
        subst hb2
        rw [letter_recognized hg1] at hrec
        exact Bool.noConfusion hrec
    -- digit branch
    · rename_i hg1 hg2
      have hw : (b :: t).takeWhile isDigit =
          (b :: t).take ((b :: t).takeWhile isDigit).length :=
        takeWhile_eq_take isDigit (b :: t)
      refine ⟨?_, ?_, ?_, ?_⟩
      · refine ⟨length_takeWhile_pos t hg2, (List.takeWhile_sublist _).length_le, ?_⟩
        rw [← hw]
        exact List.all_takeWhile ..
      · intro k2 n2 hm2
        cases k2 <;> simp only [Matches] at hm2
        · exact (no_kw_of_head hg1 kwFuncB (by decide) (by decide) n2 hm2.1 hm2.2).elim
        · exact (no_kw_of_head hg1 kwRequiresB (by decide) (by decide) n2 hm2.1 hm2.2).elim
        · exact (no_kw_of_head hg1 kwEnsuresB (by decide) (by decide) n2 hm2.1 hm2.2).elim
        · exact (no_kw_of_head hg1 kwInvariantB (by decide) (by decide) n2 hm2.1 hm2.2).elim
        · exact absurd (all_head b t n2 hm2.1 hm2.2.2) hg1
        · exact all_take_le_takeWhile _ n2 hm2.2.2 hm2.2.1
        · exact (not_digit_ws (isDigit_iff.mp hg2)
            (isWS_iff.mp (all_head b t n2 hm2.1 hm2.2.2))).elim
        · have hb2 := punct_match_head b t 123 hm2.2
          subst hb2
          exact absurd hg2 (by decide)
        · have hb2 := punct_match_head b t 125 hm2.2
          subst hb2
          exact absurd hg2 (by decide)
        · have hb2 := punct_match_head b t 40 hm2.2
          subst hb2
          exact absurd hg2 (by decide)
        · have hb2 := punct_match_head b t 41 hm2.2
          subst hb2
          exact absurd hg2 (by decide)
        · have hb2 := punct_match_head b t 62 hm2.2
          subst hb2
          exact absurd hg2 (by decide)
        · have hb2 := punct_match_head b t 64 hm2.2
          subst hb2
          exact absurd hg2 (by decide)
        · exfalso
          have hd := all_head b t n2 hm2.1 hm2.2.2
          simp only [Bool.not_eq_true'] at hd
          rw [digit_recognized hg2] at hd
          exact Bool.noConfusion hd
      · intro k2 hm2
        cases k2 <;> simp only [Matches] at hm2
        · exact (no_kw_of_head hg1 kwFuncB (by decide) (by decide) _ hm2.1 hm2.2).elim
        · exact (no_kw_of_head hg1 kwRequiresB (by decide) (by decide) _ hm2.1 hm2.2).elim
        · exact (no_kw_of_head hg1 kwEnsuresB (by decide) (by decide) _ hm2.1 hm2.2).elim
        · exact (no_kw_of_head hg1 kwInvariantB (by decide) (by decide) _ hm2.1 hm2.2).elim
        all_goals simp [priority]
      · intro b2 hb2 hrec
        exfalso
        simp only [List.head?_cons, Option.some.injEq] at hb2
        subst hb2
        rw [digit_recognized hg2] at hrec
        exact Bool.noConfusion hrec
    -- whitespace branch
    · rename_i hg1 hg2 hg3
      have hw : (b :: t).takeWhile isWS =
          (b :: t).take ((b :: t).takeWhile isWS).length :=
        takeWhile_eq_take isWS (b :: t)
      refine ⟨?_, ?_, ?_, ?_⟩
      · refine ⟨length_takeWhile_pos t hg3, (List.takeWhile_sublist _).length_le, ?_⟩
        rw [← hw]
        exact List.all_takeWhile ..
      · intro k2 n2 hm2
        cases k2 <;> simp only [Matches] at hm2
        · exact (no_kw_of_head hg1 kwFuncB (by decide) (by decide) n2 hm2.1 hm2.2).elim
        · exact (no_kw_of_head hg1 kwRequiresB (by decide) (by decide) n2 hm2.1 hm2.2).elim
        · exact (no_kw_of_head hg1 kwEnsuresB (by decide) (by decide) n2 hm2.1 hm2.2).elim
        · exact (no_kw_of_head hg1 kwInvariantB (by decide) (by decide) n2 hm2.1 hm2.2).elim
        · exact absurd (all_head b t n2 hm2.1 hm2.2.2) hg1
        · exact absurd (all_head b t n2 hm2.1 hm2.2.2) hg2
        · exact all_take_le_takeWhile _ n2 hm2.2.2 hm2.2.1
        · have hb2 := punct_match_head b t 123 hm2.2
          subst hb2
          exact absurd hg3 (by decide)
        · have hb2 := punct_match_head b t 125 hm2.2
          subst hb2
          exact absurd hg3 (by decide)
        · have hb2 := punct_match_head b t 40 hm2.2
          subst hb2
          exact absurd hg3 (by decide)
        · have hb2 := punct_match_head b t 41 hm2.2
          subst hb2
          exact absurd hg3 (by decide)
        · have hb2 := punct_match_head b t 62 hm2.2
          subst hb2
          exact absurd hg3 (by decide)
        · have hb2 := punct_match_head b t 64 hm2.2
          subst hb2
          exact absurd hg3 (by decide)
        · exfalso
          have hd := all_head b t n2 hm2.1 hm2.2.2
          simp only [Bool.not_eq_true'] at hd
          rw [ws_recognized hg3] at hd
          exact Bool.noConfusion hd
      · intro k2 hm2
        cases k2 <;> simp only [Matches] at hm2
        · exact (no_kw_of_head hg1 kwFuncB (by decide) (by decide) _ hm2.1 hm2.2).elim
        · exact (no_kw_of_head hg1 kwRequiresB (by decide) (by decide) _ hm2.1 hm2.2).elim
        · exact (no_kw_of_head hg1 kwEnsuresB (by decide) (by decide) _ hm2.1 hm2.2).elim
        · exact (no_kw_of_head hg1 kwInvariantB (by decide) (by decide) _ hm2.1 hm2.2).elim
        all_goals simp [priority]
      · intro b2 hb2 hrec
        exfalso
        simp only [List.head?_cons, Option.some.injEq] at hb2
        subst hb2
        rw [ws_recognized hg3] at hrec
        exact Bool.noConfusion hrec
    -- punctuation branches
    · rename_i hg1 hg2 hg3 hg4
      subst hg4
      exact ⟨⟨rfl, by rw [List.take_succ_cons, List.take_zero]⟩,
        punct_longest 123 t hg1 hg2 hg3 (by decide),
        punct_priority m 123 t .lbrace hg1 rfl,
        punct_errconc 123 t .lbrace (by decide)⟩
    · rename_i hg1 hg2 hg3 hg4 hg5
      subst hg5
      exact ⟨⟨rfl, by rw [List.take_succ_cons, List.take_zero]⟩,
        punct_longest 125 t hg1 hg2 hg3 (by decide),
        punct_priority m 125 t .rbrace hg1 rfl,
        punct_errconc 125 t .rbrace (by decide)⟩
    · rename_i hg1 hg2 hg3 hg4 hg5 hg6
      subst hg6
      exact ⟨⟨rfl, by rw [List.take_succ_cons, List.take_zero]⟩,
        punct_longest 40 t hg1 hg2 hg3 (by decide),
        punct_priority m 40 t .lparen hg1 rfl,
        punct_errconc 40 t .lparen (by decide)⟩
    · rename_i hg1 hg2 hg3 hg4 hg5 hg6 hg7
      subst hg7
      exact ⟨⟨rfl, by rw [List.take_succ_cons, List.take_zero]⟩,
        punct_longest 41 t hg1 hg2 hg3 (by decide),
        punct_priority m 41 t .rparen hg1 rfl,
        punct_errconc 41 t .rparen (by decide)⟩
    · rename_i hg1 hg2 hg3 hg4 hg5 hg6 hg7 hg8
      subst hg8
      exact ⟨⟨rfl, by rw [List.take_succ_cons, List.take_zero]⟩,
        punct_longest 62 t hg1 hg2 hg3 (by decide),
        punct_priority m 62 t .gtOp hg1 rfl,
        punct_errconc 62 t .gtOp (by decide)⟩
    · rename_i hg1 hg2 hg3 hg4 hg5 hg6 hg7 hg8 hg9
      subst hg9
      exact ⟨⟨rfl, by rw [List.take_succ_cons, List.take_zero]⟩,
        punct_longest 64 t hg1 hg2 hg3 (by decide),
        punct_priority m 64 t .atMark hg1 rfl,
        punct_errconc 64 t .atMark (by decide)⟩
    -- error branch
    · rename_i hg1 hg2 hg3 hg4 hg5 hg6 hg7 hg8 hg9
      have hrec : isRecognized b = false := by
        simp only [Bool.not_eq_true] at hg1 hg2 hg3
        exact unrecognized_of_guards hg1 hg2 hg3 hg4 hg5 hg6 hg7 hg8 hg9
      have hpb : (fun c => !isRecognized c) b = true := by
        show (!isRecognized b) = true
        rw [hrec]
        rfl
      have hw : (b :: t).takeWhile (fun c => !isRecognized c) =
          (b :: t).take (((b :: t).takeWhile (fun c => !isRecognized c)).length) :=
        takeWhile_eq_take _ (b :: t)
      refine ⟨?_, ?_, ?_, ?_⟩
      · refine ⟨length_takeWhile_pos t hpb, (List.takeWhile_sublist _).length_le, ?_⟩
        rw [← hw]
        exact List.all_takeWhile ..
      · intro k2 n2 hm2
        cases k2 <;> simp only [Matches] at hm2
        · exact (no_kw_of_head hg1 kwFuncB (by decide) (by decide) n2 hm2.1 hm2.2).elim
        · exact (no_kw_of_head hg1 kwRequiresB (by decide) (by decide) n2 hm2.1 hm2.2).elim
        · exact (no_kw_of_head hg1 kwEnsuresB (by decide) (by decide) n2 hm2.1 hm2.2).elim
        · exact (no_kw_of_head hg1 kwInvariantB (by decide) (by decide) n2 hm2.1 hm2.2).elim
        · exact absurd (all_head b t n2 hm2.1 hm2.2.2) hg1
        · exact absurd (all_head b t n2 hm2.1 hm2.2.2) hg2
        · exact absurd (all_head b t n2 hm2.1 hm2.2.2) hg3
        · exact absurd (punct_match_head b t 123 hm2.2) hg4
        · exact absurd (punct_match_head b t 125 hm2.2) hg5
        · exact absurd (punct_match_head b t 40 hm2.2) hg6
        · exact absurd (punct_match_head b t 41 hm2.2) hg7
        · exact absurd (punct_match_head b t 62 hm2.2) hg8
        · exact absurd (punct_match_head b t 64 hm2.2) hg9
        · exact all_take_le_takeWhile _ n2 hm2.2.2 hm2.2.1
      · intro k2 hm2
        cases k2 <;> simp only [Matches] at hm2
        · exact (no_kw_of_head hg1 kwFuncB (by decide) (by decide) _ hm2.1 hm2.2).elim
        · exact (no_kw_of_head hg1 kwRequiresB (by decide) (by decide) _ hm2.1 hm2.2).elim
        · exact (no_kw_of_head hg1 kwEnsuresB (by decide) (by decide) _ hm2.1 hm2.2).elim
        · exact (no_kw_of_head hg1 kwInvariantB (by decide) (by decide) _ hm2.1 hm2.2).elim
        all_goals simp [priority]
      · intro b2 hb2 hrec2
        simp only [List.head?_cons, Option.some.injEq] at hb2
        subst hb2
        rfl

/-! ## The C binding header (src/bindings/c/tree-sitter-gobra.h) -/

/-- A C function declaration as written in the binding header: its name,
its number of parameters, and its return type (a possibly const pointer to
a named type). -/
structure CFunDecl where
  name : String
  argCount : Nat
  returnsPtr : Bool
  returnConst : Bool
  returnTypeName : String
  deriving DecidableEq, Repr

/-- A C type declaration of the header: its name and whether the header
gives it a definition (`false` means forward-declared/incomplete only). -/
structure CTypeDecl where
  name : String
  hasDefinition : Bool
  deriving DecidableEq, Repr

/-- The function declarations of `src/bindings/c/tree-sitter-gobra.h`:
exactly one, `const TSLanguage *tree_sitter_gobra(void)`. -/
def headerFuns : List CFunDecl :=
  [{ name := "tree_sitter_gobra", argCount := 0, returnsPtr := true,
     returnConst := true, returnTypeName := "TSLanguage" }]

/-- The type declarations of the header: `typedef struct TSLanguage
TSLanguage;` — forward-declared only, never defined. -/
def headerTypes : List CTypeDecl :=
  [{ name := "TSLanguage", hasDefinition := false }]

/-- Modelled from the spec: the opaque language descriptor returned by the
entry point — the spec says it encodes the symbol table, the automaton
transition tables and ABI version metadata. -/
structure TSLanguageDesc where
  abiVersion : Nat
  symbolCount : Nat
  stateCount : Nat
  deriving DecidableEq, Repr

/-- The caller-visible world: the process's one language descriptor and the
opaque handles (pointers) the caller holds; every handle refers to the one
descriptor. -/
structure CWorld where
  lang : TSLanguageDesc
  handles : List Nat
  deriving DecidableEq, Repr

/-- The operations a caller can express against the header's interface.
`TSLanguage` is an incomplete type in the header and the returned pointer
is `const`, so a caller can only call the entry point to obtain a handle,
copy a handle, drop a handle, or compare handles — the interface exposes no
operation that constructs, inspects or writes a descriptor. -/
inductive CallerOp where
  | callEntry
  | copyHandle (i : Nat)
  | dropHandle (i : Nat)
  | compareHandles (i j : Nat)
  deriving DecidableEq, Repr

/-- Semantics of one caller-side operation. -/
def runOp (w : CWorld) : CallerOp → CWorld
  | .callEntry => { lang := w.lang, handles := w.handles ++ [0] }
  | .copyHandle i => { lang := w.lang, handles := w.handles ++ [w.handles.getD i 0] }
  | .dropHandle i => { lang := w.lang, handles := w.handles.eraseIdx i }
  | .compareHandles _ _ => w

/-- Semantics of a caller-side program against the header's interface. -/
def runOps (w : CWorld) (ops : List CallerOp) : CWorld := ops.foldl runOp w

/-! ## Claim theorems -/

/-- C1: for every text S and every edit E, incrementally re-parsing the
tree of S against the post-edit text yields a tree equal — and structurally
equal node for node (kind, byte range, children), the equality that ignores
internal sharing — to the tree of a from-scratch full parse of the
post-edit text. -/
theorem claim_incremental_equivalence (S : List Byte) (E : Edit) :
    incrementalParse (fullParse S) E (applyEdit S E) = fullParse (applyEdit S E) ∧
    teq (incrementalParse (fullParse S) E (applyEdit S E))
      (fullParse (applyEdit S E)) = true := by
  refine ⟨incremental_eq_full S E, ?_⟩
  rw [incremental_eq_full S E]
  exact teq_refl _

/-- C2: a full parse is total — for every finite byte sequence it returns a
tree (the model's `fullParse` is a total function), the root's byte range
is exactly 0 to the input length, and the whole tree satisfies the range
invariant, so the tree covers the entire input. -/
theorem claim_totality (S : List Byte) :
    tStart (fullParse S) = 0 ∧ tStop (fullParse S) = S.length ∧
    wfT (fullParse S) = true :=
  ⟨rfl, rfl, wfT_fullParse S⟩

/-- C3: sequential incremental edits compose — incrementally re-parsing
after edit E1 and then after edit E2 produces the tree of a single full
parse of the final text. -/
theorem claim_edit_composition (S : List Byte) (E1 E2 : Edit) :
    incrementalParse (incrementalParse (fullParse S) E1 (applyEdit S E1)) E2
        (applyEdit (applyEdit S E1) E2) =
      fullParse (applyEdit (applyEdit S E1) E2) := by
  rw [incremental_eq_full S E1]
  exact incremental_eq_full (applyEdit S E1) E2

/-- C4: parsing is deterministic — any two trees the parse relation
associates with the same input are structurally identical; given the
grammar the resulting tree is unique. -/
theorem claim_determinism (S : List Byte) (T1 T2 : Tree)
    (h1 : Parses S T1) (h2 : Parses S T2) : teq T1 T2 = true := by
  unfold Parses at h1 h2
  rw [← h1, ← h2]
  exact teq_refl _

/-- Witness for C4 at the concrete input "f". -/
theorem claim_determinism_witness :
    Parses [102] (fullParse [102]) ∧
    teq (fullParse [102]) (fullParse [102]) = true :=
  ⟨rfl, claim_determinism [102] (fullParse [102]) (fullParse [102]) rfl rfl⟩

/-- C5: error recovery terminates within a bound proportional to the input
length — the token count is at most the input length and the tree built
has at most 3·|S|+1 nodes — and every corrupted (unrecognized) byte of the
input is covered by an error-marked leaf of the resulting tree. -/
theorem claim_recovery_termination (S : List Byte) :
    ((lexTokens S).length ≤ S.length ∧ sizeT (fullParse S) ≤ 3 * S.length + 1) ∧
    (∀ i, i < S.length → isRecognized (S.getD i 0) = false →
      ∃ l, l ∈ leavesT (fullParse S) ∧ tErr l = true ∧ tStart l ≤ i ∧ i < tStop l) := by
  refine ⟨⟨lexTokens_count S, ?_⟩, ?_⟩
  · have h1 := sizeT_buildTree (lexTokens S) S.length
    have h2 := lexTokens_count S
    show sizeT (buildTree (lexTokens S) S.length) ≤ 3 * S.length + 1
    omega
  · intro i hi hb
    exact err_leaf_covers S i hi hb

/-- Witness for C5 at the concrete corrupted input [97, 1, 98] ("a", an
unrecognized byte, "b"). -/
theorem claim_recovery_termination_witness :
    (1 < ([97, 1, 98] : List Byte).length ∧
      isRecognized (([97, 1, 98] : List Byte).getD 1 0) = false) ∧
    (∃ l, l ∈ leavesT (fullParse [97, 1, 98]) ∧ tErr l = true ∧
      tStart l ≤ 1 ∧ 1 < tStop l) :=
  ⟨⟨by decide, by decide⟩,
    (claim_recovery_termination [97, 1, 98]).2 1 (by decide) (by decide)⟩

/-- C6: round-trip — concatenating, in order, the source text spanned by
the leaves of the tree of a full parse reproduces the input exactly. -/
theorem claim_round_trip (S : List Byte) : spanT S (fullParse S) = S :=
  spanT_fullParse S

/-- C7: every tree produced by a full parse or by an incremental re-parse
satisfies the node range invariant — each node's byte range equals the
union of its children's ranges (a terminal's range is its token's range),
sibling ranges are contiguous and non-overlapping, and each block node
built on reduce spans from its first child's start to its last child's end
with the children in original order. -/
theorem claim_node_range_invariant (S : List Byte) (E : Edit) :
    wfT (fullParse S) = true ∧
    wfT (incrementalParse (fullParse S) E (applyEdit S E)) = true := by
  refine ⟨wfT_fullParse S, ?_⟩
  rw [incremental_eq_full S E]
  exact wfT_fullParse (applyEdit S E)

/-- C8: the Token Classifier is deterministic under the longest-match rule
— every emitted token is a match, no kind matches a longer prefix, among
equal-length matches the emitted kind has the highest mode-dependent
priority (keywords over identifiers, annotation keywords over identifiers
only in annotation mode), an unrecognized leading byte yields an error
token, and classification never fails on non-empty input. -/
theorem claim_token_classification :
    (∀ (m : LexMode) (s : List Byte) (k : TokKind) (n : Nat) (m2 : LexMode),
      lexStep m s = some (k, n, m2) →
      Matches k s n ∧
      (∀ k2 n2, Matches k2 s n2 → n2 ≤ n) ∧
      (∀ k2, Matches k2 s n → priority m k2 ≤ priority m k) ∧
      (∀ b, s.head? = some b → isRecognized b = false → k = .errorTok)) ∧
    (∀ (m : LexMode) (s : List Byte), s ≠ [] → lexStep m s ≠ none) := by
  constructor
  · intro m s k n m2 h
    exact lexStep_matches h
  · intro m s hne hnone
    exact hne ((lexStep_none_iff m s).mp hnone)

/-- Witness for C8 at the concrete input "requires " in annotation mode:
the classifier emits the annotation keyword, and the theorem's conclusions
hold there. -/
theorem claim_token_classification_witness :
    lexStep .annot [114, 101, 113, 117, 105, 114, 101, 115, 32] =
      some (.kwRequires, 8, .annot) ∧
    (Matches .kwRequires [114, 101, 113, 117, 105, 114, 101, 115, 32] 8 ∧
     (∀ k2 n2, Matches k2 [114, 101, 113, 117, 105, 114, 101, 115, 32] n2 → n2 ≤ 8) ∧
     (∀ k2, Matches k2 [114, 101, 113, 117, 105, 114, 101, 115, 32] 8 →
        priority .annot k2 ≤ priority .annot .kwRequires) ∧
     (∀ b, ([114, 101, 113, 117, 105, 114, 101, 115, 32] : List Byte).head? = some b →
        isRecognized b = false → TokKind.kwRequires = .errorTok)) :=
  ⟨by decide,
    claim_token_classification.1 .annot [114, 101, 113, 117, 105, 114, 101, 115, 32]
      .kwRequires 8 .annot (by decide)⟩

/-- C9: the binding header exposes exactly one entry point, named
tree_sitter_gobra, taking no arguments and returning a const pointer to
the opaque TSLanguage descriptor type. -/
theorem claim_single_entry_point :
    headerFuns.map CFunDecl.name = ["tree_sitter_gobra"] ∧
    (∀ f, f ∈ headerFuns → f.argCount = 0 ∧ f.returnsPtr = true ∧
      f.returnConst = true ∧ f.returnTypeName = "TSLanguage") ∧
    (∀ t2, t2 ∈ headerTypes → t2.name = "TSLanguage" → t2.hasDefinition = false) := by
  refine ⟨rfl, ?_, ?_⟩
  · intro f hf
    simp only [headerFuns, List.mem_singleton] at hf
    subst hf
    exact ⟨rfl, rfl, rfl, rfl⟩
  · intro t2 ht hn
    simp only [headerTypes, List.mem_singleton] at ht
    subst ht
    rfl

/-- Witness for C9 at the one declaration of the header. -/
theorem claim_single_entry_point_witness :
    ((⟨"tree_sitter_gobra", 0, true, true, "TSLanguage"⟩ : CFunDecl) ∈ headerFuns) ∧
    ((⟨"tree_sitter_gobra", 0, true, true, "TSLanguage"⟩ : CFunDecl).argCount = 0 ∧
     (⟨"tree_sitter_gobra", 0, true, true, "TSLanguage"⟩ : CFunDecl).returnsPtr = true ∧
     (⟨"tree_sitter_gobra", 0, true, true, "TSLanguage"⟩ : CFunDecl).returnConst = true ∧
     (⟨"tree_sitter_gobra", 0, true, true, "TSLanguage"⟩ : CFunDecl).returnTypeName =
       "TSLanguage") :=
  ⟨by simp [headerFuns],
    claim_single_entry_point.2.1 _ (by simp [headerFuns])⟩

/-- C10: through the public C interface the descriptor cannot be mutated —
TSLanguage is forward-declared only and the returned pointer is const, so
the expressible caller-side operations are calling the entry point and
copying, dropping or comparing handles, and every sequence of such
operations leaves every field of the descriptor unchanged. -/
theorem claim_descriptor_immutable (w : CWorld) (ops : List CallerOp) :
    (runOps w ops).lang = w.lang := by
  induction ops generalizing w with
  | nil => rfl
  | cons op ops ih =>
    show (runOps (runOp w op) ops).lang = w.lang
    rw [ih (runOp w op)]
    cases op <;> rfl

end Gobra
